import Mathlib

/-!
Verification development for the HDRezka stream-extraction worker.

The JavaScript worker is shallowly embedded: strings are `List Char` /
`String`, JS objects with string keys are insertion-ordered association
lists with replace-on-assign semantics, JSON envelope fields are `Option`
values, fallible operations return `Option` / `Except`, and the network
boundary is a `FetchResult` parameter.  Regular-expression matching is
embedded by explicit scanners that follow the semantics of the concrete
patterns appearing in the source.
-/

namespace Nocturne

/-! ## Deobfuscator: the trash pattern

The source pattern is
`/^#h|\/\/_\/\/|(?:I[01UV]|[JQ][EF]|X[kl])(?:[A4][=hjk]|[B5][Ae])|(?:I[Sy]|[JQ]C|Xi)(?:[EMQ][=hjk]|[FNR][Ae])/g`
applied with `String.replace` (global, single left-to-right pass over the
original string; `^` anchors to position 0 only).  The four-character
markers are split into the two disjuncts: prefix class 1 / suffix class 1
and prefix class 2 / suffix class 2. -/

/-- First two characters of a class-1 four-character marker:
`I[01UV]|[JQ][EF]|X[kl]`. -/
def isM1a (a b : Char) : Bool :=
  (a == 'I' && (b == '0' || b == '1' || b == 'U' || b == 'V')) ||
  ((a == 'J' || a == 'Q') && (b == 'E' || b == 'F')) ||
  (a == 'X' && (b == 'k' || b == 'l'))

/-- Last two characters of a class-1 four-character marker:
`[A4][=hjk]|[B5][Ae]`. -/
def isM1b (a b : Char) : Bool :=
  ((a == 'A' || a == '4') && (b == '=' || b == 'h' || b == 'j' || b == 'k')) ||
  ((a == 'B' || a == '5') && (b == 'A' || b == 'e'))

/-- First two characters of a class-2 four-character marker:
`I[Sy]|[JQ]C|Xi`. -/
def isM2a (a b : Char) : Bool :=
  (a == 'I' && (b == 'S' || b == 'y')) ||
  ((a == 'J' || a == 'Q') && b == 'C') ||
  (a == 'X' && b == 'i')

/-- Last two characters of a class-2 four-character marker:
`[EMQ][=hjk]|[FNR][Ae]`. -/
def isM2b (a b : Char) : Bool :=
  ((a == 'E' || a == 'M' || a == 'Q') && (b == '=' || b == 'h' || b == 'j' || b == 'k')) ||
  ((a == 'F' || a == 'N' || a == 'R') && (b == 'A' || b == 'e'))

/-- A four-character junk marker (either class). -/
def isMarker4 (a b c d : Char) : Bool :=
  (isM1a a b && isM1b c d) || (isM2a a b && isM2b c d)

/-- Length of the trash-pattern match at the current position, or 0 when
nothing matches there.  `atStart` is true exactly at position 0 of the
subject string, where the `^#h` alternative can fire. -/
def headMatchLen : Bool → List Char → Nat
  | true, '#' :: 'h' :: _ => 2
  | _, '/' :: '/' :: '_' :: '/' :: '/' :: _ => 5
  | _, a :: b :: c :: d :: _ => if isMarker4 a b c d then 4 else 0
  | _, _ => 0

/-- Single left-to-right global-replace pass of the trash pattern with the
empty replacement, mirroring `trashString.replace(TRASH_PATTERN, '')`.
Matches are removed and scanning resumes after the match; replaced text is
never rescanned. -/
def stripTrash : Bool → List Char → List Char
  | true, '#' :: 'h' :: rest => stripTrash false rest
  | _, '/' :: '/' :: '_' :: '/' :: '/' :: rest => stripTrash false rest
  | _, a :: b :: c :: d :: rest =>
    if isMarker4 a b c d then stripTrash false rest
    else a :: stripTrash false (b :: c :: d :: rest)
  | _, a :: rest => a :: stripTrash false rest
  | _, [] => []

/-! ## Base64: `btoa` / `atob`

`atob` implements the WHATWG forgiving-base64 decode: ASCII whitespace is
removed; when the length is a multiple of 4 up to two trailing `=` are
stripped; a remaining length of 1 mod 4 or any character outside the
base64 alphabet (including a leftover `=`) is a failure; a leftover group
of 2 (resp. 3) characters decodes to 1 (resp. 2) bytes. -/

/-- The base64 alphabet character for a 6-bit value. -/
def b64chr (n : Nat) : Char :=
  if n < 26 then Char.ofNat (65 + n)
  else if n < 52 then Char.ofNat (97 + (n - 26))
  else if n < 62 then Char.ofNat (48 + (n - 52))
  else if n = 62 then '+'
  else '/'

/-- Membership in the base64 alphabet. -/
def isB64Char (c : Char) : Bool :=
  (65 ≤ c.toNat && c.toNat ≤ 90) || (97 ≤ c.toNat && c.toNat ≤ 122) ||
  (48 ≤ c.toNat && c.toNat ≤ 57) || c.toNat == 43 || c.toNat == 47

/-- The 6-bit value of a base64 alphabet character. -/
def b64val (c : Char) : Nat :=
  if 65 ≤ c.toNat && c.toNat ≤ 90 then c.toNat - 65
  else if 97 ≤ c.toNat && c.toNat ≤ 122 then c.toNat - 71
  else if 48 ≤ c.toNat && c.toNat ≤ 57 then c.toNat + 4
  else if c.toNat == 43 then 62
  else 63

/-- ASCII whitespace removed by forgiving base64 decode. -/
def isAsciiWS (c : Char) : Bool :=
  c.toNat == 32 || c.toNat == 9 || c.toNat == 10 || c.toNat == 12 ||
  c.toNat == 13

/-- Core base64 encoding of a byte sequence, without `=` padding. -/
def encB64 : List Nat → List Char
  | [] => []
  | [a] => [b64chr (a / 4), b64chr (a % 4 * 16)]
  | [a, b] => [b64chr (a / 4), b64chr (a % 4 * 16 + b / 16), b64chr (b % 16 * 4)]
  | a :: b :: c :: rest =>
    b64chr (a / 4) :: b64chr (a % 4 * 16 + b / 16) ::
    b64chr (b % 16 * 4 + c / 64) :: b64chr (c % 64) :: encB64 rest

/-- JS `btoa` on a byte sequence: standard base64 with `=` padding. -/
def btoa (bytes : List Nat) : List Char :=
  encB64 bytes ++ List.replicate ((3 - bytes.length % 3) % 3) '='

/-- Decode base64 characters in groups of four, with the forgiving-decode
treatment of a leftover group of two or three characters. -/
def decodeChunks : List Char → List Nat
  | [] => []
  | [_] => []
  | [a, b] => [(b64val a * 64 + b64val b) / 16]
  | [a, b, c] =>
    [(b64val a * 4096 + b64val b * 64 + b64val c) / 1024,
     (b64val a * 4096 + b64val b * 64 + b64val c) / 4 % 256]
  | a :: b :: c :: d :: rest =>
    (b64val a * 262144 + b64val b * 4096 + b64val c * 64 + b64val d) / 65536 ::
    (b64val a * 262144 + b64val b * 4096 + b64val c * 64 + b64val d) / 256 % 256 ::
    (b64val a * 262144 + b64val b * 4096 + b64val c * 64 + b64val d) % 256 ::
    decodeChunks rest

/-- Strip up to two trailing `=` when the length is a multiple of four. -/
def dropPad (d : List Char) : List Char :=
  if d.length % 4 = 0 then
    match d.reverse with
    | '=' :: '=' :: r => r.reverse
    | '=' :: r => r.reverse
    | _ => d
  else d

/-- JS `atob` (forgiving base64 decode) returning the decoded bytes, or
`none` on failure. -/
def atobD (s : List Char) : Option (List Nat) :=
  let d0 := s.filter (fun c => !isAsciiWS c)
  let d := dropPad d0
  if d.length % 4 = 1 then none
  else if d.all isB64Char then some (decodeChunks d) else none

/-- Byte-level `clearTrash`: strip the trash pattern, append `"=="`,
attempt `atob`; on failure retry without the forced padding; on a second
failure return the empty result. -/
def clearTrashBytes (trashString : List Char) : List Nat :=
  let cleaned := stripTrash true trashString
  match atobD (cleaned ++ ['=', '=']) with
  | some bs => bs
  | none =>
    match atobD cleaned with
    | some bs => bs
    | none => []

/-- The source `clearTrash`: the decoded bytes read back as a JS string
(one character per byte, as `atob` produces). -/
def clearTrash (trashString : List Char) : List Char :=
  (clearTrashBytes trashString).map Char.ofNat

/-! ## JS objects with string keys

A JS object literal used as a dictionary is embedded as an association
list in property-creation order; assigning to an existing key replaces
the value in place, a new key is appended.  `Object.keys` enumerates
array-index-like keys first, in ascending numeric order, and then the
remaining string keys in creation order. -/

/-- Property assignment `m[k] = v`. -/
def objSet {α : Type} (m : List (String × α)) (k : String) (v : α) :
    List (String × α) :=
  if m.any (fun p => p.1 == k) then
    m.map (fun p => if p.1 == k then (p.1, v) else p)
  else m ++ [(k, v)]

/-- Property lookup `m[k]`, `none` for `undefined`. -/
def objGet {α : Type} (m : List (String × α)) (k : String) : Option α :=
  (m.find? (fun p => p.1 == k)).map (fun p => p.2)

/-- The numeric value of a digit string. -/
def digitsVal (l : List Char) : Nat :=
  l.foldl (fun a c => a * 10 + (c.toNat - 48)) 0

/-- Whether a string is a canonical array index (`"0"`, or digits with no
leading zero, with value below 2^32 - 1): such keys enumerate first. -/
def isArrayIndexKey (s : String) : Bool :=
  match s.toList with
  | [] => false
  | c :: rest =>
    (c != '0' || rest.isEmpty) && (c :: rest).all Char.isDigit &&
      digitsVal (c :: rest) < 4294967295

/-- Stable insertion into a key-sorted list: the new element goes after
every element whose key is less than or equal to its own. -/
def sInsertK (key : String → Int) (x : String) : List String → List String
  | [] => [x]
  | y :: ys => if key y ≤ key x then y :: sInsertK key x ys else x :: y :: ys

/-- Stable sort by an integer key; the model of the guaranteed-stable JS
`Array.prototype.sort` under the comparator `(a, b) => key a - key b`. -/
def sortByKey (key : String → Int) (l : List String) : List String :=
  l.foldl (fun acc x => sInsertK key x acc) []

/-- `Object.keys` enumeration order. -/
def objectKeys {α : Type} (m : List (String × α)) : List String :=
  sortByKey (fun s => (digitsVal s.toList : Int))
      ((m.map Prod.fst).filter isArrayIndexKey) ++
    (m.map Prod.fst).filter (fun k => !isArrayIndexKey k)

/-! ## JS `parseInt` -/

/-- JS StrWhiteSpace characters skipped by `parseInt`. -/
def isJsWS (c : Char) : Bool :=
  (9 ≤ c.toNat && c.toNat ≤ 13) || c.toNat == 32 || c.toNat == 160 ||
  c.toNat == 5760 || (8192 ≤ c.toNat && c.toNat ≤ 8202) ||
  c.toNat == 8232 || c.toNat == 8233 || c.toNat == 8239 ||
  c.toNat == 8287 || c.toNat == 12288 || c.toNat == 65279

/-- Hexadecimal digit test. -/
def isHexDigit (c : Char) : Bool :=
  c.isDigit || ('a' ≤ c && c ≤ 'f') || ('A' ≤ c && c ≤ 'F')

/-- Hexadecimal digit value. -/
def hexVal (c : Char) : Nat :=
  if c.isDigit then c.toNat - 48
  else if 'a' ≤ c && c ≤ 'f' then c.toNat - 87
  else c.toNat - 55

/-- Numeric value of a hex digit string. -/
def hexDigitsVal (l : List Char) : Nat :=
  l.foldl (fun a c => a * 16 + hexVal c) 0

/-- Unsigned body of `parseInt`: hex after a `0x` prefix, else decimal. -/
def jsParseIntBody (l : List Char) : Option Nat :=
  match l with
  | '0' :: 'x' :: rest =>
    if (rest.takeWhile isHexDigit).isEmpty then none
    else some (hexDigitsVal (rest.takeWhile isHexDigit))
  | '0' :: 'X' :: rest =>
    if (rest.takeWhile isHexDigit).isEmpty then none
    else some (hexDigitsVal (rest.takeWhile isHexDigit))
  | _ =>
    if (l.takeWhile Char.isDigit).isEmpty then none
    else some (digitsVal (l.takeWhile Char.isDigit))

/-- JS `parseInt(s)` with unspecified radix: skip whitespace, optional
sign, an optional `0x`/`0X` hex prefix, then the longest digit prefix;
`none` models `NaN`. -/
def jsParseInt (s : String) : Option Int :=
  match s.toList.dropWhile isJsWS with
  | '-' :: rest => (jsParseIntBody rest).map (fun n => -(n : Int))
  | '+' :: rest => (jsParseIntBody rest).map (fun n => (n : Int))
  | rest => (jsParseIntBody rest).map (fun n => (n : Int))

/-- The quality comparator key `parseInt(a) || 0` from `getStream`. -/
def jsKey (s : String) : Int :=
  match jsParseInt s with
  | some n => n
  | none => 0

/-! ## Stream-payload parser -/

/-- JS `String.prototype.split` with a one-character separator. -/
def splitOnChar (sep : Char) : List Char → List (List Char)
  | [] => [[]]
  | c :: rest =>
    match splitOnChar sep rest with
    | [] => [[c]]
    | h :: t => if c == sep then [] :: h :: t else (c :: h) :: t

/-- JS `String.prototype.split` with the multi-character separator
`sep`, scanning left to right for non-overlapping occurrences.  The
first argument counts separator characters still to be skipped. -/
def splitSubAux (sep : List Char) : Nat → List Char → List (List Char)
  | k + 1, _ :: rest => splitSubAux sep k rest
  | _ + 1, [] => [[]]
  | 0, [] => [[]]
  | 0, c :: rest =>
    if List.take sep.length (c :: rest) == sep then
      [] :: splitSubAux sep (sep.length - 1) rest
    else
      match splitSubAux sep 0 rest with
      | [] => [[c]]
      | h :: t => (c :: h) :: t

/-- Split on the literal string `" or "` (URL alternatives in a payload
segment). -/
def splitOnOr (s : List Char) : List (List Char) :=
  splitSubAux [' ', 'o', 'r', ' '] 0 s

/-- JS line terminators, which `.` does not match. -/
def isLineTerm (c : Char) : Bool :=
  c == '\n' || c.toNat == 13 || c.toNat == 8232 || c.toNat == 8233

/-- Match of the anchored pattern `^\[([^\]]+)\](.+)$` against one
segment: an opening bracket, a non-empty bracket-free quality label, the
closing bracket, and a non-empty remainder that `.+` can cross (so free
of line terminators). -/
def segMatch (part : List Char) : Option (List Char × List Char) :=
  match part with
  | '[' :: rest =>
    let q := rest.takeWhile (fun c => c != ']')
    match rest.drop q.length with
    | ']' :: tail =>
      if !q.isEmpty && !tail.isEmpty && tail.all (fun c => !isLineTerm c) then
        some (q, tail)
      else none
    | _ => none
  | _ => none

/-- JS `String.prototype.endsWith`. -/
def endsWithL (suffix s : List Char) : Bool :=
  suffix.isSuffixOf s

/-- Processing of one comma-separated payload segment: on a pattern
match, the first `" or "`-alternative ending in `.m3u8` (if any) is
assigned to the quality label; otherwise the accumulator is unchanged. -/
def segStep (m : List (String × String)) (part : List Char) :
    List (String × String) :=
  match segMatch part with
  | some (q, urlPart) =>
    match (splitOnOr urlPart).find? (endsWithL ".m3u8".toList) with
    | some url => objSet m (String.mk q) (String.mk url)
    | none => m
  | none => m

/-- The parser over an already-decoded payload string: split on `,` and
process each segment. -/
def parseVideoUrlsDecoded (decoded : List Char) : List (String × String) :=
  (splitOnChar ',' decoded).foldl segStep []

/-- The source `parseVideoUrls`, which deobfuscates its input first. -/
def parseVideoUrls (data : List Char) : List (String × String) :=
  parseVideoUrlsDecoded (clearTrash data)

/-! ## Stream fetcher -/

/-- A JSON value as far as the envelope's truthiness checks need it. -/
inductive Jv : Type
  | jbool : Bool → Jv
  | jstr : String → Jv
  | jnum : Int → Jv
  | jnull : Jv
deriving DecidableEq

/-- JS truthiness of a defined JSON value. -/
def truthy : Jv → Bool
  | .jbool b => b
  | .jstr s => s != ""
  | .jnum n => n != 0
  | .jnull => false

/-- The JSON envelope returned by the upstream AJAX endpoint; absent
fields are `none`. -/
structure Envelope : Type where
  success : Option Jv
  message : Option String
  url : Option String
  subtitle : Option String
  subtitle_lns : Option (List (String × String))
deriving DecidableEq

/-- One subtitle track of the result. -/
structure Subtitle : Type where
  lang : String
  name : String
  url : String
deriving DecidableEq

/-- The normalized stream descriptor built by `getStream`. -/
structure StreamResult : Type where
  stream_url : String
  qualities : List String
  subtitles : List Subtitle
  all_urls : List (String × String)
deriving DecidableEq

/-- `parseSubtitles`: when the subtitle data is truthy and the
language map is defined, every non-"off" language code is paired with
the same subtitle-data value. -/
def parseSubtitles (subtitleData : Option String)
    (subtitleLns : Option (List (String × String))) : List Subtitle :=
  match subtitleData, subtitleLns with
  | some sd, some lns =>
    if sd != "" then
      (objectKeys lns).filterMap (fun code =>
        (objGet lns code).bind (fun name =>
          if code != "off" then some ⟨code, name, sd⟩ else none))
    else []
  | _, _ => []

/-- Quality ordering and best-quality selection from `getStream`
(lines 193-201): sort `Object.keys(videoUrls)` with the numeric
comparator, take the last entry as best quality, and fall back to the
empty string when its lookup is undefined or empty. -/
def bestStream (videoUrls : List (String × String)) : List String × String :=
  let qualities := sortByKey jsKey (objectKeys videoUrls)
  match qualities.getLast? with
  | some bestQuality => (qualities, (objGet videoUrls bestQuality).getD "")
  | none => (qualities, "")

/-- The pure tail of `getStream` once the envelope is in hand. -/
def mkStreamResult (d : Envelope) : StreamResult :=
  let videoUrls :=
    match d.url with
    | some u => if u != "" then parseVideoUrls u.toList else []
    | none => []
  let qs := bestStream videoUrls
  { stream_url := qs.2
    qualities := qs.1
    subtitles := parseSubtitles d.subtitle d.subtitle_lns
    all_urls := videoUrls }

/-- Outcome of an outbound `fetch`: a network-level rejection carrying
the propagated error message, or a response with an HTTP status and a
parsed body. -/
inductive FetchResult (β : Type) : Type
  | fail : String → FetchResult β
  | resp : Nat → β → FetchResult β
deriving DecidableEq

/-- `getStream` from the response onward: non-2xx statuses and an
explicitly falsy `success` flag raise; everything else produces a
`StreamResult`. -/
def getStreamFull (fr : FetchResult Envelope) : Except String StreamResult :=
  match fr with
  | .fail e => .error e
  | .resp status d =>
    if 200 ≤ status ∧ status ≤ 299 then
      match d.success with
      | some v =>
        if truthy v then .ok (mkStreamResult d)
        else
          .error (match d.message with
            | some msg => if msg != "" then msg else "AJAX request failed"
            | none => "AJAX request failed")
      | none => .ok (mkStreamResult d)
    else .error ("AJAX request failed: " ++ toString status)

/-! ## Content-info extractor -/

/-- Try a matcher at every position of the subject, left to right,
returning the first success (JS non-global `String.match`). -/
def findFirst {α : Type} (f : List Char → Option α) : List Char → Option α
  | [] => none
  | c :: rest =>
    match f (c :: rest) with
    | some a => some a
    | none => findFirst f rest

/-- Match of `lit("(\d+)"` at the head: the literal, then a non-empty
digit run, then a closing quote; yields the digit run. -/
def quotedDigitsAt (lit : List Char) (s : List Char) : Option (List Char) :=
  if s.take lit.length == lit then
    let r := s.drop lit.length
    let ds := r.takeWhile Char.isDigit
    if !ds.isEmpty && (r.drop ds.length).take 1 == ['"'] then some ds
    else none
  else none

/-- First `data-id="(\d+)"` occurrence. -/
def findDataId (html : List Char) : Option (List Char) :=
  findFirst (quotedDigitsAt "data-id=\"".toList) html

/-- First `data-translator_id="(\d+)"` occurrence. -/
def findTranslatorId (html : List Char) : Option (List Char) :=
  findFirst (quotedDigitsAt "data-translator_id=\"".toList) html

/-- JS `String.prototype.trim`. -/
def jsTrim (s : List Char) : List Char :=
  ((s.dropWhile isJsWS).reverse.dropWhile isJsWS).reverse

/-- Head match of `data-translator_id="(\d+)"[^>]*>([^<]+)<`: after the
quoted id, `[^>]*` reaches exactly the first `>` (it cannot cross one and
the following literal `>` admits no shorter match), then a non-empty
capture up to the first `<`, which must exist.  Returns the id, the
trimmed display name, and the total match length. -/
def matchTransAt (s : List Char) : Option (Nat × String × Nat) :=
  match quotedDigitsAt "data-translator_id=\"".toList s with
  | none => none
  | some ds =>
    let pre := "data-translator_id=\"".length + ds.length + 1
    let r := s.drop pre
    let gap := r.takeWhile (fun c => c != '>')
    match r.drop gap.length with
    | '>' :: r2 =>
      let name := r2.takeWhile (fun c => c != '<')
      match r2.drop name.length with
      | '<' :: _ =>
        if name.isEmpty then none
        else some (digitsVal ds, String.mk (jsTrim name),
          pre + gap.length + 1 + name.length + 1)
      | _ => none
    | _ => none

/-- Global `exec` loop of the translator pattern: successive
non-overlapping matches, resuming after each match end.  The first
argument counts characters of the previous match still to skip. -/
def scanTranslators : Nat → List Char → List (Nat × String)
  | k + 1, _ :: rest => scanTranslators k rest
  | _ + 1, [] => []
  | 0, [] => []
  | 0, c :: rest =>
    match matchTransAt (c :: rest) with
    | some (id, name, len) => (id, name) :: scanTranslators (len - 1) rest
    | none => scanTranslators 0 rest

/-- Head match of `data-episode_id="(\d+)"`, with the match length. -/
def epTailAt (s : List Char) : Option (List Char × Nat) :=
  match quotedDigitsAt "data-episode_id=\"".toList s with
  | some ds => some (ds, "data-episode_id=\"".length + ds.length + 1)
  | none => none

/-- Backtracking search for the episode tail after `[^>]*`: the greedy
star prefers the longest `>`-free gap, so the deepest occurrence wins.
Returns the digits and the offset one past the match end. -/
def lastEpInWindow : List Char → Option (List Char × Nat)
  | [] => none
  | c :: rest =>
    match (if c != '>' then lastEpInWindow rest else none) with
    | some (ds, n) => some (ds, n + 1)
    | none => epTailAt (c :: rest)

/-- Head match of the paired pattern
`data-season_id="(\d+)"[^>]*data-episode_id="(\d+)"`, giving season id,
episode id and total length. -/
def matchSeasonEpAt (s : List Char) : Option (String × Nat × Nat) :=
  match quotedDigitsAt "data-season_id=\"".toList s with
  | none => none
  | some ds =>
    let pre := "data-season_id=\"".length + ds.length + 1
    match lastEpInWindow (s.drop pre) with
    | some (eds, off) => some (String.mk ds, digitsVal eds, pre + off)
    | none => none

/-- Global `exec` loop of the season/episode pattern. -/
def scanSeasonEp : Nat → List Char → List (String × Nat)
  | k + 1, _ :: rest => scanSeasonEp k rest
  | _ + 1, [] => []
  | 0, [] => []
  | 0, c :: rest =>
    match matchSeasonEpAt (c :: rest) with
    | some (sid, eid, len) => (sid, eid) :: scanSeasonEp (len - 1) rest
    | none => scanSeasonEp 0 rest

/-- Add one scanned pair to the season map: create the season's list on
first sight, and push the episode id unless already present. -/
def addEpisode (m : List (String × List Nat)) (sid : String) (eid : Nat) :
    List (String × List Nat) :=
  if m.any (fun p => p.1 == sid) then
    m.map (fun p =>
      if p.1 == sid then (p.1, if p.2.contains eid then p.2 else p.2 ++ [eid])
      else p)
  else m ++ [(sid, [eid])]

/-- Grouping of the scanned pairs by season id. -/
def groupEpisodes (ps : List (String × Nat)) : List (String × List Nat) :=
  ps.foldl (fun m p => addEpisode m p.1 p.2) []

/-- Occurrence of `pat` at some position of the subject. -/
def hasInfix (pat : List Char) : List Char → Bool
  | [] => pat.isEmpty
  | c :: rest => pat.isPrefixOf (c :: rest) || hasInfix pat rest

/-- Substring test (JS `String.prototype.includes`). -/
def containsSub (pat s : String) : Bool :=
  hasInfix pat.toList s.toList

/-- The scraped page data. -/
structure ContentInfo : Type where
  id : Option String
  translatorId : Option String
  isSeries : Bool
  translators : List (Nat × String)
  seasons : List (String × List Nat)
deriving DecidableEq

/-- The pure part of `getContentInfo` once the page HTML is in hand. -/
def parseContentInfo (url html : String) : ContentInfo :=
  let h := html.toList
  let series :=
    containsSub "sof.tv" html || containsSub "data-season_id" html ||
      containsSub "/series/" url
  { id := (findDataId h).map String.mk
    translatorId := (findTranslatorId h).map String.mk
    isSeries := series
    translators := scanTranslators 0 h
    seasons := if series then groupEpisodes (scanSeasonEp 0 h) else [] }

/-- `getContentInfo` from the response onward: a network rejection
propagates, a non-2xx status raises, and every fetched document parses
without error. -/
def getContentInfoFull (url : String) (fr : FetchResult String) :
    Except String ContentInfo :=
  match fr with
  | .fail e => .error e
  | .resp status html =>
    if 200 ≤ status ∧ status ≤ 299 then .ok (parseContentInfo url html)
    else .error ("Failed to fetch page: " ++ toString status)

/-! ## Search result classification -/

/-- Content-type heuristic over a result URL (lines 243-248). -/
def classifyUrl (url : String) : String :=
  if containsSub "/series/" url then "series"
  else if containsSub "/cartoons/" url then
    if containsSub "-sezon" url then "series" else "movie"
  else "movie"

/-- Head match of `(\d{4})`: four consecutive digits. -/
def fourDigitsAt (s : List Char) : Option (List Char) :=
  if (s.take 4).length == 4 && (s.take 4).all Char.isDigit then
    some (s.take 4)
  else none

/-- The year extracted from a result's info text: the first position
with four consecutive digits (`info.match(/(\d{4})/)`). -/
def yearOf (info : String) : Option String :=
  (findFirst fourDigitsAt info.toList).map String.mk

/-- One extracted search entry (lines 250-256). -/
structure SearchEntry : Type where
  url : String
  title : String
  type : String
  year : Option String
  poster : String
deriving DecidableEq

/-- Construction of one search entry from the captured fields. -/
def mkSearchEntry (url poster title info : String) : SearchEntry :=
  { url := url
    title := title
    type := classifyUrl url
    year := yearOf info
    poster := poster }

/-! ## The `/api/stream` handler's translator selection -/

/-- Line 352: `const tid = translatorId || info.translatorId` — the query
parameter (absent `none`, possibly empty) falls back to the page's
primary translator when not truthy. -/
def selectTid (queryTid : Option String) (info : ContentInfo) :
    Option String :=
  match queryTid with
  | some s => if s != "" then some s else info.translatorId
  | none => info.translatorId

/-! ## C10: translator fallback on the stream endpoint -/

/-- C10: on `/api/stream`, an absent or empty `translator_id` query
parameter falls back to the page's primary translator id (possibly
null), while a non-empty parameter overrides it. -/
theorem apiStream_translator_fallback :
    ∀ (q : Option String) (info : ContentInfo),
      ((q = none ∨ q = some "") → selectTid q info = info.translatorId) ∧
      (∀ s, q = some s → s ≠ "" → selectTid q info = some s) := by
  intro q info
  constructor
  · rintro (rfl | rfl) <;> simp [selectTid]
  · rintro s rfl hs
    simp [selectTid, hs]

/-- Witness for C10 at concrete inputs. -/
theorem apiStream_translator_fallback_w :
    selectTid (some "") ⟨none, some "7", false, [], []⟩ = some "7" ∧
    selectTid (some "5") ⟨none, some "7", false, [], []⟩ = some "5" :=
  ⟨((apiStream_translator_fallback (some "")
        ⟨none, some "7", false, [], []⟩).1 (Or.inr rfl)).trans rfl,
   (apiStream_translator_fallback (some "5")
        ⟨none, some "7", false, [], []⟩).2 "5" rfl (by decide)⟩

/-! ## C6: getStream failure conditions -/

/-- C6: `getStream` fails exactly on a rejected fetch, a non-2xx status
(carrying the status), or an envelope whose `success` field is defined
and falsy — in which case a truthy `message` is passed through and a
missing or empty one is replaced by the default text; an envelope
without a `success` field is not rejected. -/
theorem getStream_error_conditions :
    ∀ fr : FetchResult Envelope,
      (∀ e, fr = .fail e → getStreamFull fr = .error e) ∧
      (∀ st d, fr = .resp st d → ¬(200 ≤ st ∧ st ≤ 299) →
        getStreamFull fr = .error ("AJAX request failed: " ++ toString st)) ∧
      (∀ st d v m, fr = .resp st d → 200 ≤ st → st ≤ 299 →
        d.success = some v → truthy v = false → d.message = some m → m ≠ "" →
        getStreamFull fr = .error m) ∧
      (∀ st d v, fr = .resp st d → 200 ≤ st → st ≤ 299 →
        d.success = some v → truthy v = false →
        (d.message = none ∨ d.message = some "") →
        getStreamFull fr = .error "AJAX request failed") ∧
      (∀ st d, fr = .resp st d → 200 ≤ st → st ≤ 299 →
        (d.success = none ∨ ∃ v, d.success = some v ∧ truthy v = true) →
        getStreamFull fr = .ok (mkStreamResult d)) := by
  intro fr
  refine ⟨?_, ?_, ?_, ?_, ?_⟩
  · rintro e rfl; rfl
  · rintro st d rfl hst
    simp [getStreamFull, hst]
  · rintro st d v m rfl h1 h2 hs hv hm hne
    simp [getStreamFull, h1, h2, hs, hv, hm, hne]
  · rintro st d v rfl h1 h2 hs hv hm
    rcases hm with hm | hm <;> simp [getStreamFull, h1, h2, hs, hv, hm]
  · rintro st d rfl h1 h2 hs
    rcases hs with hs | ⟨v, hs, hv⟩
    · simp [getStreamFull, h1, h2, hs]
    · simp [getStreamFull, h1, h2, hs, hv]

/-- Witness for C6: a network failure, a 404, a falsy envelope with and
without a message, and an envelope with no `success` field. -/
theorem getStream_error_conditions_w :
    getStreamFull (.fail "boom") = .error "boom" ∧
    getStreamFull (.resp 404 ⟨none, none, none, none, none⟩) =
      .error "AJAX request failed: 404" ∧
    getStreamFull (.resp 200 ⟨some (.jbool false), some "bad", none, none, none⟩) =
      .error "bad" ∧
    getStreamFull (.resp 200 ⟨some (.jnull), none, none, none, none⟩) =
      .error "AJAX request failed" ∧
    getStreamFull (.resp 200 ⟨none, none, none, none, none⟩) =
      .ok (mkStreamResult ⟨none, none, none, none, none⟩) :=
  ⟨(getStream_error_conditions (.fail "boom")).1 "boom" rfl,
   (getStream_error_conditions _).2.1 404 _ rfl (by omega),
   (getStream_error_conditions _).2.2.1 200 _ (.jbool false) "bad" rfl (by omega)
      (by omega) rfl rfl rfl (by decide),
   (getStream_error_conditions _).2.2.2.1 200 _ .jnull rfl (by omega) (by omega)
      rfl rfl (Or.inl rfl),
   (getStream_error_conditions _).2.2.2.2 200 _ rfl (by omega) (by omega)
      (Or.inl rfl)⟩

/-! ## C7: getContentInfo error handling -/

/-- C7: `getContentInfo` raises only for a failed or non-2xx fetch;
every fetched document parses without error, missing markers degrading
to nulls: a page with `data-id="123"` and `data-translator_id="4"`
yields those first occurrences, and a page with neither yields null
ids, a false series flag and no error. -/
theorem getContentInfo_error_handling :
    (∀ (url : String) (fr : FetchResult String),
      (∀ e, fr = .fail e → getContentInfoFull url fr = .error e) ∧
      (∀ st h, fr = .resp st h → ¬(200 ≤ st ∧ st ≤ 299) →
        getContentInfoFull url fr =
          .error ("Failed to fetch page: " ++ toString st)) ∧
      (∀ st h, fr = .resp st h → 200 ≤ st → st ≤ 299 →
        getContentInfoFull url fr = .ok (parseContentInfo url h))) ∧
    (parseContentInfo "https://example.com/films/x"
        "<div data-id=\"123\" data-translator_id=\"4\">Dub</div><b data-id=\"999\">").id
        = some "123" ∧
    (parseContentInfo "https://example.com/films/x"
        "<div data-id=\"123\" data-translator_id=\"4\">Dub</div><b data-id=\"999\">").translatorId
        = some "4" ∧
    (parseContentInfo "https://example.com/films/x"
        "<html><body>plain page</body></html>").id = none ∧
    (parseContentInfo "https://example.com/films/x"
        "<html><body>plain page</body></html>").translatorId = none ∧
    (parseContentInfo "https://example.com/films/x"
        "<html><body>plain page</body></html>").isSeries = false := by
  refine ⟨?_, rfl, rfl, rfl, rfl, rfl⟩
  intro url fr
  refine ⟨?_, ?_, ?_⟩
  · rintro e rfl; rfl
  · rintro st h rfl hst
    simp [getContentInfoFull, hst]
  · rintro st h rfl h1 h2
    simp [getContentInfoFull, h1, h2]

/-- Witness for C7 at concrete fetch outcomes. -/
theorem getContentInfo_error_handling_w :
    getContentInfoFull "u" (.fail "down") = .error "down" ∧
    getContentInfoFull "u" (.resp 500 "<html></html>") =
      .error "Failed to fetch page: 500" ∧
    getContentInfoFull "u" (.resp 200 "<html></html>") =
      .ok (parseContentInfo "u" "<html></html>") :=
  ⟨(getContentInfo_error_handling.1 "u" (.fail "down")).1 "down" rfl,
   (getContentInfo_error_handling.1 "u" _).2.1 500 "<html></html>" rfl (by omega),
   (getContentInfo_error_handling.1 "u" _).2.2 200 "<html></html>" rfl
      (by omega) (by omega)⟩

/-! ## C9: search type classification and year extraction -/

/-- Spec-side reading of "four consecutive digits at position `i`". -/
def FourDigitWindow (l : List Char) (i : Nat) : Prop :=
  ((l.drop i).take 4).length = 4 ∧ ∀ c ∈ (l.drop i).take 4, c.isDigit = true

theorem fourDigitsAt_eq_some {s : List Char} {d : List Char} :
    fourDigitsAt s = some d ↔
      (s.take 4).length = 4 ∧ (∀ c ∈ s.take 4, c.isDigit = true) ∧ d = s.take 4 := by
  by_cases hc : ((s.take 4).length == 4 && (s.take 4).all Char.isDigit) = true
  · unfold fourDigitsAt
    rw [if_pos hc]
    rw [Bool.and_eq_true, beq_iff_eq, List.all_eq_true] at hc
    constructor
    · rintro h'; injection h' with h'; exact ⟨hc.1, hc.2, h'.symm⟩
    · rintro ⟨_, _, rfl⟩; rfl
  · unfold fourDigitsAt
    rw [if_neg hc]
    rw [Bool.and_eq_true, beq_iff_eq, List.all_eq_true] at hc
    constructor
    · intro h; exact absurd h (by simp)
    · rintro ⟨h1, h2, rfl⟩; exact absurd ⟨h1, h2⟩ hc

theorem fourDigitsAt_eq_none {s : List Char} :
    fourDigitsAt s = none ↔
      ¬((s.take 4).length = 4 ∧ ∀ c ∈ s.take 4, c.isDigit = true) := by
  constructor
  · intro h hw
    have h2 : fourDigitsAt s = some (s.take 4) :=
      fourDigitsAt_eq_some.2 ⟨hw.1, hw.2, rfl⟩
    rw [h] at h2; exact Option.noConfusion h2
  · intro hw
    rcases h : fourDigitsAt s with _ | d
    · rfl
    · exact absurd (fourDigitsAt_eq_some.1 h) (fun hx => hw ⟨hx.1, hx.2.1⟩)

theorem findFirst_eq_none {α : Type} (f : List Char → Option α)
    (hf : f [] = none) (l : List Char) :
    findFirst f l = none ↔ ∀ i, f (l.drop i) = none := by
  induction l with
  | nil =>
    simp only [findFirst, true_iff]
    intro i; rw [List.drop_nil]; exact hf
  | cons c rest ih =>
    simp only [findFirst]
    rcases h : f (c :: rest) with _ | a
    · rw [ih]
      constructor
      · intro hr i
        match i with
        | 0 => exact h
        | i + 1 => exact hr i
      · intro hr i
        exact hr (i + 1)
    · constructor
      · intro hx; exact absurd hx (by simp)
      · intro hr
        have h0 := hr 0
        rw [List.drop_zero, h] at h0
        exact absurd h0 (by simp)

theorem findFirst_eq_some {α : Type} (f : List Char → Option α)
    {l : List Char} {a : α} (h : findFirst f l = some a) :
    ∃ i, f (l.drop i) = some a ∧ ∀ j < i, f (l.drop j) = none := by
  induction l with
  | nil => simp [findFirst] at h
  | cons c rest ih =>
    simp only [findFirst] at h
    rcases hc : f (c :: rest) with _ | b
    · rw [hc] at h
      rcases ih h with ⟨i, hi, hj⟩
      refine ⟨i + 1, hi, ?_⟩
      intro j hji
      match j with
      | 0 => exact hc
      | j + 1 => exact hj j (by omega)
    · rw [hc] at h
      injection h with h
      exact ⟨0, by simpa [hc] using congrArg some h, by omega⟩

/-- C9: a search entry's type is "series" for a `/series/` URL, is
decided by the `-sezon` marker for a `/cartoons/` URL, and is "movie"
otherwise; its year is the first run of four digits in the info text,
or null when none occurs. -/
theorem search_classification_and_year :
    (∀ url : String,
      (containsSub "/series/" url = true → classifyUrl url = "series") ∧
      (containsSub "/series/" url = false → containsSub "/cartoons/" url = true →
        containsSub "-sezon" url = true → classifyUrl url = "series") ∧
      (containsSub "/series/" url = false → containsSub "/cartoons/" url = true →
        containsSub "-sezon" url = false → classifyUrl url = "movie") ∧
      (containsSub "/series/" url = false → containsSub "/cartoons/" url = false →
        classifyUrl url = "movie") ∧
      (∀ poster title info,
        (mkSearchEntry url poster title info).type = classifyUrl url ∧
        (mkSearchEntry url poster title info).year = yearOf info)) ∧
    (∀ info : String,
      (yearOf info = none ↔ ∀ i, ¬FourDigitWindow info.toList i) ∧
      (∀ y, yearOf info = some y →
        ∃ i, FourDigitWindow info.toList i ∧
          y = String.mk ((info.toList.drop i).take 4) ∧
          ∀ j < i, ¬FourDigitWindow info.toList j)) := by
  constructor
  · intro url
    refine ⟨?_, ?_, ?_, ?_, ?_⟩
    · intro h1; simp [classifyUrl, h1]
    · intro h1 h2 h3; simp [classifyUrl, h1, h2, h3]
    · intro h1 h2 h3; simp [classifyUrl, h1, h2, h3]
    · intro h1 h2; simp [classifyUrl, h1, h2]
    · intro poster title info; exact ⟨rfl, rfl⟩
  · intro info
    constructor
    · simp only [yearOf, Option.map_eq_none']
      rw [findFirst_eq_none fourDigitsAt (by rfl)]
      constructor
      · intro h i hw
        exact absurd hw (fourDigitsAt_eq_none.1 (h i))
      · intro h i
        exact fourDigitsAt_eq_none.2 (h i)
    · intro y hy
      simp only [yearOf, Option.map_eq_some'] at hy
      rcases hy with ⟨d, hd, rfl⟩
      rcases findFirst_eq_some fourDigitsAt hd with ⟨i, hi, hj⟩
      rcases fourDigitsAt_eq_some.1 hi with ⟨h1, h2, rfl⟩
      refine ⟨i, ⟨h1, h2⟩, rfl, ?_⟩
      intro j hji hw
      exact absurd hw (fourDigitsAt_eq_none.1 (hj j hji))

/-- Witness for C9 at concrete inputs. -/
theorem search_classification_and_year_w :
    classifyUrl "https://h/cartoons/x-2-sezon" = "series" ∧
    classifyUrl "https://h/films/x" = "movie" ∧
    yearOf "Drama, 2019-2021" = some "2019" ∧
    yearOf "no digits" = none :=
  ⟨((search_classification_and_year.1 "https://h/cartoons/x-2-sezon").2.1
      (by decide) (by decide) (by decide)),
   ((search_classification_and_year.1 "https://h/films/x").2.2.2.1
      (by decide) (by decide)),
   rfl, rfl⟩

/-! ## C5: decode failure degrades silently -/

/-- C5: when decoding the stripped token with forced `"=="` padding
fails, the deobfuscator retries without it, and when both decodes fail
it returns the empty string; `getStream` then still returns normally
with an empty stream url and an empty quality mapping, as it also does
when the envelope's `url` field is absent or empty. -/
theorem deobfuscation_failure_is_silent :
    (∀ t : List Char,
      atobD (stripTrash true t ++ ['=', '=']) = none →
      clearTrashBytes t = (atobD (stripTrash true t)).getD []) ∧
    (∀ t : List Char,
      atobD (stripTrash true t ++ ['=', '=']) = none →
      atobD (stripTrash true t) = none → clearTrash t = []) ∧
    (∀ (st : Nat) (d : Envelope), 200 ≤ st → st ≤ 299 →
      (d.success = none ∨ ∃ v, d.success = some v ∧ truthy v = true) →
      (d.url = none ∨ d.url = some "" ∨
        ∃ u, d.url = some u ∧ clearTrash u.toList = []) →
      getStreamFull (.resp st d) =
        .ok ⟨"", [], parseSubtitles d.subtitle d.subtitle_lns, []⟩) := by
  refine ⟨?_, ?_, ?_⟩
  · intro t h
    simp only [clearTrashBytes, h]
    rcases h2 : atobD (stripTrash true t) with _ | bs <;> simp
  · intro t h1 h2
    simp only [clearTrash, clearTrashBytes, h1, h2, List.map_nil]
  · intro st d h1 h2 hs hu
    have hvu : (match d.url with
        | some u => if u != "" then parseVideoUrls u.toList else []
        | none => ([] : List (String × String))) = [] := by
      rcases hu with hu | hu | ⟨u, hu, hcl⟩
      · rw [hu]
      · rw [hu]; rfl
      · rw [hu]
        simp only []
        by_cases he : u = ""
        · simp [he]
        · rw [if_pos (by simpa using he)]
          unfold parseVideoUrls
          rw [hcl]
          rfl
    have hmk : mkStreamResult d =
        ⟨"", [], parseSubtitles d.subtitle d.subtitle_lns, []⟩ := by
      unfold mkStreamResult
      rw [hvu]
      rfl
    rcases hs with hs | ⟨v, hs, hv⟩
    · simp [getStreamFull, h1, h2, hs, hmk]
    · simp [getStreamFull, h1, h2, hs, hv, hmk]

/-- Witness for C5: a token on which both decodes fail, and a passing
envelope carrying it. -/
theorem deobfuscation_failure_is_silent_w :
    clearTrash "!".toList = [] ∧
    getStreamFull (.resp 200 ⟨none, none, some "!", none, none⟩) =
      .ok ⟨"", [], [], []⟩ :=
  ⟨deobfuscation_failure_is_silent.2.1 "!".toList rfl rfl,
   deobfuscation_failure_is_silent.2.2 200 ⟨none, none, some "!", none, none⟩
      (by omega) (by omega) (Or.inl rfl)
      (Or.inr (Or.inr ⟨"!", rfl,
        deobfuscation_failure_is_silent.2.1 "!".toList rfl rfl⟩))⟩

/-! ## C8: season grouping -/

/-- The episode ids scanned for one season, in scan order (spec side). -/
def episodesOf (sid : String) (ps : List (String × Nat)) : List Nat :=
  ps.filterMap (fun p => if p.1 = sid then some p.2 else none)

/-- Deduplication keeping the first occurrence, in insertion order,
starting from an already-collected prefix (spec side). -/
def dedupInto (acc : List Nat) (es : List Nat) : List Nat :=
  es.foldl (fun a e => if a.contains e then a else a ++ [e]) acc

/-- Deduplication keeping first occurrences, in insertion order. -/
def dedupFirst (es : List Nat) : List Nat :=
  dedupInto [] es

theorem objGet_cons {α : Type} (k' : String) (v : α) (m : List (String × α))
    (k : String) :
    objGet ((k', v) :: m) k = if k' == k then some v else objGet m k := by
  simp only [objGet, List.find?]
  rcases h : k' == k with _ | _ <;> simp [h]

theorem objGet_map_update {α : Type} (m : List (String × α)) (sid : String)
    (g : α → α) :
    objGet (m.map (fun p => if p.1 == sid then (p.1, g p.2) else p)) sid =
      (objGet m sid).map g := by
  induction m with
  | nil => rfl
  | cons p m ih =>
    rcases p with ⟨k, v⟩
    by_cases h : (k == sid) = true
    · simp only [List.map_cons, h, if_pos, objGet_cons, ih]
      rw [beq_iff_eq] at h
      subst h
      simp [objGet_cons]
    · simp only [List.map_cons, if_neg h, objGet_cons, ih]

theorem objGet_map_update_other {α : Type} (m : List (String × α))
    (s sid : String) (g : α → α) (hne : s ≠ sid) :
    objGet (m.map (fun p => if p.1 == s then (p.1, g p.2) else p)) sid =
      objGet m sid := by
  induction m with
  | nil => rfl
  | cons p m ih =>
    rcases p with ⟨k, v⟩
    by_cases h : (k == s) = true
    · rw [beq_iff_eq] at h
      subst h
      simp only [List.map_cons, beq_self_eq_true, if_pos, objGet_cons, ih]
      rw [if_neg (by simpa using hne), if_neg (by simpa using hne)]
    · simp only [List.map_cons, if_neg h, objGet_cons, ih]

theorem objGet_append {α : Type} (m m' : List (String × α)) (k : String) :
    objGet (m ++ m') k =
      match objGet m k with
      | some v => some v
      | none => objGet m' k := by
  induction m with
  | nil => rfl
  | cons p m ih =>
    rcases p with ⟨k', v⟩
    rcases h : k' == k with _ | _ <;>
      simp [List.cons_append, objGet_cons, h, ih]

theorem objGet_eq_none_of_not_any {α : Type} {m : List (String × α)}
    {k : String} (h : m.any (fun p => p.1 == k) = false) :
    objGet m k = none := by
  simp only [objGet, Option.map_eq_none']
  rw [List.find?_eq_none]
  intro x hx hbeq
  rw [List.any_eq_false] at h
  exact h x hx hbeq

theorem objGet_isSome_of_any {α : Type} {m : List (String × α)} {k : String}
    (h : m.any (fun p => p.1 == k) = true) : ∃ v, objGet m k = some v := by
  rw [List.any_eq_true] at h
  rcases h with ⟨p, hp, hbeq⟩
  rcases hf : List.find? (fun p => p.1 == k) m with _ | q
  · rw [List.find?_eq_none] at hf
    exact absurd hbeq (hf p hp)
  · exact ⟨q.2, by simp [objGet, hf]⟩

theorem objGet_addEpisode_self (m : List (String × List Nat)) (sid : String)
    (eid : Nat) :
    objGet (addEpisode m sid eid) sid =
      some (match objGet m sid with
            | none => [eid]
            | some l => if l.contains eid then l else l ++ [eid]) := by
  unfold addEpisode
  by_cases h : m.any (fun p => p.1 == sid) = true
  · rw [if_pos h,
      objGet_map_update m sid (fun l => if l.contains eid then l else l ++ [eid])]
    rcases objGet_isSome_of_any h with ⟨l, hl⟩
    rw [hl]
    rfl
  · rw [if_neg h, objGet_append,
      objGet_eq_none_of_not_any (Bool.eq_false_iff.2 h)]
    simp [objGet_cons]

theorem objGet_addEpisode_other (m : List (String × List Nat))
    (s sid : String) (eid : Nat) (hne : s ≠ sid) :
    objGet (addEpisode m s eid) sid = objGet m sid := by
  unfold addEpisode
  by_cases h : m.any (fun p => p.1 == s) = true
  · rw [if_pos h, objGet_map_update_other m s sid
      (fun l => if l.contains eid then l else l ++ [eid]) hne]
  · rw [if_neg h, objGet_append]
    rcases ho : objGet m sid with _ | l
    · simp [objGet_cons, if_neg (by simpa using hne), objGet]
    · rfl

theorem foldl_addEpisode (ps : List (String × Nat)) :
    ∀ (acc : List (String × List Nat)) (sid : String),
      objGet (ps.foldl (fun m p => addEpisode m p.1 p.2) acc) sid =
        match objGet acc sid with
        | some l => some (dedupInto l (episodesOf sid ps))
        | none =>
          if episodesOf sid ps = [] then none
          else some (dedupInto [] (episodesOf sid ps)) := by
  induction ps with
  | nil =>
    intro acc sid
    rcases ho : objGet acc sid with _ | l <;> simp [episodesOf, dedupInto, ho]
  | cons p ps ih =>
    intro acc sid
    rcases p with ⟨s, e⟩
    rw [List.foldl_cons]
    by_cases hse : s = sid
    · subst hse
      have heps : episodesOf s ((s, e) :: ps) = e :: episodesOf s ps := by
        simp [episodesOf]
      rw [ih (addEpisode acc s e) s, objGet_addEpisode_self, heps]
      rcases ho : objGet acc s with _ | l
      · simp only [if_neg (List.cons_ne_nil e (episodesOf s ps))]
        rfl
      · rfl
    · have heps : episodesOf sid ((s, e) :: ps) = episodesOf sid ps := by
        simp [episodesOf, hse]
      rw [ih (addEpisode acc s e) sid, objGet_addEpisode_other acc s sid e hse,
        heps]

/-- C8: the scanned season/episode pairs are grouped by season id, the
episode list of each season being its scanned episode ids deduplicated
but kept in first-appearance order; a series page fixture with one
`data-season_id=10` / `data-episode_id=3` pair yields a true series
flag and the single-season map. -/
theorem seasons_grouping :
    (∀ (ps : List (String × Nat)) (sid : String),
      objGet (groupEpisodes ps) sid =
        if episodesOf sid ps = [] then none
        else some (dedupFirst (episodesOf sid ps))) ∧
    (∀ url html, (parseContentInfo url html).seasons =
      (if (parseContentInfo url html).isSeries then
        groupEpisodes (scanSeasonEp 0 html.toList) else [])) ∧
    (parseContentInfo "https://h/series/show"
        "<ul><li data-season_id=\"10\" data-episode_id=\"3\">E3</li></ul>").isSeries
      = true ∧
    (parseContentInfo "https://h/series/show"
        "<ul><li data-season_id=\"10\" data-episode_id=\"3\">E3</li></ul>").seasons
      = [("10", [3])] := by
  refine ⟨?_, fun url html => rfl, rfl, rfl⟩
  intro ps sid
  rw [groupEpisodes, foldl_addEpisode ps [] sid]
  rfl

/-! ## C3: parser segment semantics -/

theorem splitOnChar_ne_nil (sep : Char) (l : List Char) :
    splitOnChar sep l ≠ [] := by
  cases l with
  | nil => simp [splitOnChar]
  | cons c rest =>
    simp only [splitOnChar]
    rcases h : splitOnChar sep rest with _ | ⟨h0, t0⟩
    · simp
    · rcases hc : c == sep with _ | _ <;> simp [hc]

theorem splitOnChar_cons_sep (sep : Char) (rest : List Char) :
    splitOnChar sep (sep :: rest) = [] :: splitOnChar sep rest := by
  simp only [splitOnChar]
  rcases h : splitOnChar sep rest with _ | ⟨h0, t0⟩
  · exact absurd h (splitOnChar_ne_nil sep rest)
  · simp

theorem splitOnChar_cons_no (sep c : Char) (rest : List Char)
    (hc : (c == sep) = false) :
    ∃ h0 t0, splitOnChar sep rest = h0 :: t0 ∧
      splitOnChar sep (c :: rest) = (c :: h0) :: t0 := by
  rcases h : splitOnChar sep rest with _ | ⟨h0, t0⟩
  · exact absurd h (splitOnChar_ne_nil sep rest)
  · refine ⟨h0, t0, rfl, ?_⟩
    simp only [splitOnChar]
    rw [h]
    simp [hc]

theorem splitOnChar_append (sep : Char) (a b : List Char)
    (h : ∀ c ∈ a, (c == sep) = false) :
    splitOnChar sep (a ++ sep :: b) = a :: splitOnChar sep b := by
  induction a with
  | nil => simpa using splitOnChar_cons_sep sep b
  | cons c a ih =>
    have ih2 := ih (fun x hx => h x (by simp [hx]))
    rcases splitOnChar_cons_no sep c (a ++ sep :: b) (h c (by simp))
      with ⟨h0, t0, he, hres⟩
    rw [ih2] at he
    injection he with he1 he2
    rw [List.cons_append, hres, ← he1, ← he2]

theorem splitOnChar_no_sep (sep : Char) (a : List Char)
    (h : ∀ c ∈ a, (c == sep) = false) :
    splitOnChar sep a = [a] := by
  induction a with
  | nil => rfl
  | cons c a ih =>
    rcases splitOnChar_cons_no sep c a (h c (by simp)) with ⟨h0, t0, he, hres⟩
    rw [ih (fun x hx => h x (by simp [hx]))] at he
    injection he with he1 he2
    rw [hres, ← he1, ← he2]

theorem splitSubAux_ne_nil (sep : List Char) :
    ∀ (k : Nat) (l : List Char), splitSubAux sep k l ≠ []
  | k + 1, _ :: rest => splitSubAux_ne_nil sep k rest
  | _ + 1, [] => by simp [splitSubAux]
  | 0, [] => by simp [splitSubAux]
  | 0, c :: rest => by
    simp only [splitSubAux]
    split
    · simp
    · rcases h : splitSubAux sep 0 rest with _ | ⟨h0, t0⟩ <;> simp

theorem splitOnOr_sep_head (b : List Char) :
    splitOnOr (' ' :: 'o' :: 'r' :: ' ' :: b) = [] :: splitOnOr b := rfl

theorem splitOnOr_cons_no (c : Char) (rest : List Char) (hc : c ≠ ' ') :
    ∃ h0 t0, splitOnOr rest = h0 :: t0 ∧
      splitOnOr (c :: rest) = (c :: h0) :: t0 := by
  rcases h : splitOnOr rest with _ | ⟨h0, t0⟩
  · exact absurd h (splitSubAux_ne_nil _ 0 rest)
  · refine ⟨h0, t0, rfl, ?_⟩
    unfold splitOnOr at h ⊢
    simp only [splitSubAux]
    have htk : (List.take ([' ', 'o', 'r', ' '] : List Char).length (c :: rest)
        == [' ', 'o', 'r', ' ']) = false := by
      simp only [List.length_cons, List.length_nil, List.take_succ_cons]
      rcases rest with _ | ⟨r1, rest⟩
      · simp
      · simp only [List.cons_beq_cons]
        rw [show (c == ' ') = false from beq_eq_false_iff_ne.2 hc]
        simp
    have hni : ¬(List.take ([' ', 'o', 'r', ' '] : List Char).length (c :: rest)
        == [' ', 'o', 'r', ' ']) = true := by
      rw [htk]; exact Bool.false_ne_true
    rw [if_neg hni, h]

theorem splitOnOr_append (u1 b : List Char) (h : ∀ c ∈ u1, c ≠ ' ') :
    splitOnOr (u1 ++ ' ' :: 'o' :: 'r' :: ' ' :: b) = u1 :: splitOnOr b := by
  induction u1 with
  | nil => simpa using splitOnOr_sep_head b
  | cons c u1 ih =>
    have ih2 := ih (fun x hx => h x (by simp [hx]))
    rcases splitOnOr_cons_no c (u1 ++ ' ' :: 'o' :: 'r' :: ' ' :: b)
      (h c (by simp)) with ⟨h0, t0, he, hres⟩
    rw [ih2] at he
    injection he with he1 he2
    rw [List.cons_append, hres, ← he1, ← he2]

theorem splitOnOr_no_sep (u : List Char) (h : ∀ c ∈ u, c ≠ ' ') :
    splitOnOr u = [u] := by
  induction u with
  | nil => rfl
  | cons c u ih =>
    rcases splitOnOr_cons_no c u (h c (by simp)) with ⟨h0, t0, he, hres⟩
    rw [ih (fun x hx => h x (by simp [hx]))] at he
    injection he with he1 he2
    rw [hres, ← he1, ← he2]

theorem objGet_nil {α : Type} (k : String) :
    objGet ([] : List (String × α)) k = none := rfl

theorem takeWhile_no_bracket (q rest : List Char) (hqc : ∀ c ∈ q, c ≠ ']') :
    (q ++ ']' :: rest).takeWhile (fun c => c != ']') = q := by
  induction q with
  | nil => simp [List.takeWhile]
  | cons c q ih =>
    rw [List.cons_append, List.takeWhile_cons,
      if_pos (by simpa using hqc c (by simp)), ih (fun x hx => hqc x (by simp [hx]))]

theorem segMatch_shape (q rest : List Char) (hq : q ≠ []) (hqc : ∀ c ∈ q, c ≠ ']')
    (hr : rest ≠ []) (hrt : ∀ c ∈ rest, isLineTerm c = false) :
    segMatch ('[' :: q ++ ']' :: rest) = some (q, rest) := by
  rcases q with _ | ⟨qh, qt⟩
  · exact absurd rfl hq
  rcases rest with _ | ⟨rh, rt⟩
  · exact absurd rfl hr
  show segMatch ('[' :: ((qh :: qt) ++ ']' :: rh :: rt)) = _
  simp only [segMatch]
  rw [takeWhile_no_bracket _ _ hqc, List.drop_left]
  have hall : (rh :: rt).all (fun c => !isLineTerm c) = true :=
    List.all_eq_true.2 (fun c hc => by simp [hrt c hc])
  simp [hall]

theorem objGet_objSet {α : Type} (m : List (String × α)) (k : String) (v : α)
    (k' : String) :
    objGet (objSet m k v) k' = if k' = k then some v else objGet m k' := by
  by_cases h : m.any (fun p => p.1 == k) = true
  · have h1 := objGet_map_update m k (fun _ => v)
    unfold objSet
    rw [if_pos h]
    by_cases hk : k' = k
    · subst hk
      rw [h1]
      rcases objGet_isSome_of_any h with ⟨w, hw⟩
      rw [hw, if_pos rfl]
      rfl
    · rw [objGet_map_update_other m k k' (fun _ => v) (fun he => hk he.symm),
        if_neg hk]
  · unfold objSet
    rw [if_neg h, objGet_append]
    by_cases hk : k' = k
    · subst hk
      rw [objGet_eq_none_of_not_any (Bool.eq_false_iff.2 h), if_pos rfl]
      simp [objGet_cons]
    · rw [if_neg hk]
      rcases ho : objGet m k' with _ | w
      · simp [objGet_cons, ho, beq_eq_false_iff_ne.2 (fun he => hk he.symm), objGet]
      · rfl

theorem foldl_segStep_m3u8 :
    ∀ (parts : List (List Char)) (m : List (String × String)),
      (∀ q v, objGet m q = some v → endsWithL ".m3u8".toList v.toList = true) →
      ∀ q v, objGet (parts.foldl segStep m) q = some v →
        endsWithL ".m3u8".toList v.toList = true := by
  intro parts
  induction parts with
  | nil => exact fun m hm => hm
  | cons part parts ih =>
    intro m hm
    rw [List.foldl_cons]
    apply ih
    intro q v hqv
    rcases hseg : segMatch part with _ | ⟨qq, urlPart⟩
    · simp only [segStep, hseg] at hqv; exact hm q v hqv
    · simp only [segStep, hseg] at hqv
      rcases hf : (splitOnOr urlPart).find? (endsWithL ".m3u8".toList)
        with _ | u
      · simp only [hf] at hqv; exact hm q v hqv
      · simp only [hf, objGet_objSet] at hqv
        by_cases hq : q = String.mk qq
        · rw [if_pos hq] at hqv
          injection hqv with hqv
          subst hqv
          simpa using List.find?_some hf
        · rw [if_neg hq] at hqv; exact hm q v hqv

/-- C3: on a decoded payload of the shape `[q1]u1 or u2,[q2]u3` (labels
bracket- and comma-free, urls comma-, space- and line-terminator-free),
the parser maps `q1` to the first of `u1`, `u2` ending in `.m3u8` and
`q2` to `u3` when it ends in `.m3u8`; a quality with no `.m3u8`
alternative is simply absent, and every mapped url ends in `.m3u8`;
`parseVideoUrls` is this parser after deobfuscation. -/
theorem parser_segment_semantics :
    (∀ q1 u1 u2 q2 u3 : List Char,
      q1 ≠ [] → (∀ c ∈ q1, c ≠ ']' ∧ c ≠ ',') →
      q2 ≠ [] → (∀ c ∈ q2, c ≠ ']' ∧ c ≠ ',') →
      u1 ≠ [] → (∀ c ∈ u1, c ≠ ',' ∧ c ≠ ' ' ∧ isLineTerm c = false) →
      u2 ≠ [] → (∀ c ∈ u2, c ≠ ',' ∧ c ≠ ' ' ∧ isLineTerm c = false) →
      u3 ≠ [] → (∀ c ∈ u3, c ≠ ',' ∧ c ≠ ' ' ∧ isLineTerm c = false) →
      String.mk q1 ≠ String.mk q2 →
      (objGet (parseVideoUrlsDecoded
          ('[' :: q1 ++ ']' :: u1 ++ ' ' :: 'o' :: 'r' :: ' ' :: u2 ++
            ',' :: '[' :: q2 ++ ']' :: u3)) (String.mk q1) =
        (if endsWithL ".m3u8".toList u1 = true then some (String.mk u1)
         else if endsWithL ".m3u8".toList u2 = true then some (String.mk u2)
         else none)) ∧
      (objGet (parseVideoUrlsDecoded
          ('[' :: q1 ++ ']' :: u1 ++ ' ' :: 'o' :: 'r' :: ' ' :: u2 ++
            ',' :: '[' :: q2 ++ ']' :: u3)) (String.mk q2) =
        (if endsWithL ".m3u8".toList u3 = true then some (String.mk u3)
         else none))) ∧
    (∀ (d : List Char) (q v : String),
      objGet (parseVideoUrlsDecoded d) q = some v →
      endsWithL ".m3u8".toList v.toList = true) ∧
    (∀ data : List Char,
      parseVideoUrls data = parseVideoUrlsDecoded (clearTrash data)) := by
  refine ⟨?_, ?_, fun data => rfl⟩
  · intro q1 u1 u2 q2 u3 hq1 hq1c hq2 hq2c hu1 hu1c hu2 hu2c hu3 hu3c h12
    have hd : ('[' :: q1 ++ ']' :: u1 ++ ' ' :: 'o' :: 'r' :: ' ' :: u2 ++
        ',' :: '[' :: q2 ++ ']' :: u3)
        = ('[' :: (q1 ++ ']' :: (u1 ++ ' ' :: 'o' :: 'r' :: ' ' :: u2))) ++
          ',' :: ('[' :: (q2 ++ ']' :: u3)) := by
      simp
    have hcf1 : ∀ c ∈ ('[' :: (q1 ++ ']' :: (u1 ++ ' ' :: 'o' :: 'r' :: ' ' :: u2))),
        (c == ',') = false := by
      intro c hc
      rw [beq_eq_false_iff_ne]
      simp only [List.mem_cons, List.mem_append] at hc
      rcases hc with rfl | hc | rfl | hc | rfl | rfl | rfl | rfl | hc
      · decide
      · exact (hq1c c hc).2
      · decide
      · exact (hu1c c hc).1
      · decide
      · decide
      · decide
      · decide
      · exact (hu2c c hc).1
    have hcf2 : ∀ c ∈ ('[' :: (q2 ++ ']' :: u3)), (c == ',') = false := by
      intro c hc
      rw [beq_eq_false_iff_ne]
      simp only [List.mem_cons, List.mem_append] at hc
      rcases hc with rfl | hc | rfl | hc
      · decide
      · exact (hq2c c hc).2
      · decide
      · exact (hu3c c hc).1
    have hsplit : splitOnChar ','
        ('[' :: q1 ++ ']' :: u1 ++ ' ' :: 'o' :: 'r' :: ' ' :: u2 ++
          ',' :: '[' :: q2 ++ ']' :: u3)
        = [('[' :: (q1 ++ ']' :: (u1 ++ ' ' :: 'o' :: 'r' :: ' ' :: u2))),
           ('[' :: (q2 ++ ']' :: u3))] := by
      rw [hd, splitOnChar_append ',' _ _ hcf1, splitOnChar_no_sep ',' _ hcf2]
    have hseg1 : segMatch ('[' :: (q1 ++ ']' :: (u1 ++ ' ' :: 'o' :: 'r' :: ' ' :: u2)))
        = some (q1, u1 ++ ' ' :: 'o' :: 'r' :: ' ' :: u2) := by
      apply segMatch_shape _ _ hq1 (fun c hc => (hq1c c hc).1)
      · rcases u1 with _ | _ <;> simp
      · intro c hc
        simp only [List.mem_append, List.mem_cons] at hc
        rcases hc with hc | rfl | rfl | rfl | rfl | hc
        · exact (hu1c c hc).2.2
        · decide
        · decide
        · decide
        · decide
        · exact (hu2c c hc).2.2
    have hseg2 : segMatch ('[' :: (q2 ++ ']' :: u3)) = some (q2, u3) :=
      segMatch_shape _ _ hq2 (fun c hc => (hq2c c hc).1) hu3
        (fun c hc => (hu3c c hc).2.2)
    have hor1 : splitOnOr (u1 ++ ' ' :: 'o' :: 'r' :: ' ' :: u2) = [u1, u2] := by
      rw [splitOnOr_append u1 u2 (fun c hc => (hu1c c hc).2.1),
        splitOnOr_no_sep u2 (fun c hc => (hu2c c hc).2.1)]
    have hor3 : splitOnOr u3 = [u3] :=
      splitOnOr_no_sep u3 (fun c hc => (hu3c c hc).2.1)
    have hm1 : segStep [] ('[' :: (q1 ++ ']' :: (u1 ++ ' ' :: 'o' :: 'r' :: ' ' :: u2)))
        = (if endsWithL ".m3u8".toList u1 = true then [(String.mk q1, String.mk u1)]
           else if endsWithL ".m3u8".toList u2 = true then [(String.mk q1, String.mk u2)]
           else []) := by
      simp only [segStep, hseg1, hor1, List.find?]
      rcases he1 : endsWithL ".m3u8".toList u1 with _ | _
      · rcases he2 : endsWithL ".m3u8".toList u2 with _ | _
        · rfl
        · rfl
      · rfl
    have hstep2 : ∀ m : List (String × String),
        segStep m ('[' :: (q2 ++ ']' :: u3))
        = (if endsWithL ".m3u8".toList u3 = true
           then objSet m (String.mk q2) (String.mk u3) else m) := by
      intro m
      simp only [segStep, hseg2, hor3, List.find?]
      rcases he3 : endsWithL ".m3u8".toList u3 with _ | _
      · rfl
      · rfl
    have hfold : parseVideoUrlsDecoded
        ('[' :: q1 ++ ']' :: u1 ++ ' ' :: 'o' :: 'r' :: ' ' :: u2 ++
          ',' :: '[' :: q2 ++ ']' :: u3)
        = segStep (segStep [] ('[' :: (q1 ++ ']' :: (u1 ++ ' ' :: 'o' :: 'r' :: ' ' :: u2))))
            ('[' :: (q2 ++ ']' :: u3)) := by
      rw [parseVideoUrlsDecoded, hsplit]
      rfl
    rw [hfold, hm1, hstep2]
    constructor
    · rcases he3 : endsWithL ".m3u8".toList u3 with _ | _ <;>
        rcases he1 : endsWithL ".m3u8".toList u1 with _ | _ <;>
          rcases he2 : endsWithL ".m3u8".toList u2 with _ | _ <;>
            simp [objGet_objSet, objGet_cons, h12, objGet_nil]
    · rcases he3 : endsWithL ".m3u8".toList u3 with _ | _ <;>
        rcases he1 : endsWithL ".m3u8".toList u1 with _ | _ <;>
          rcases he2 : endsWithL ".m3u8".toList u2 with _ | _ <;>
            simp [objGet_objSet, objGet_cons, h12, Ne.symm h12, objGet_nil]
  · intro d q v
    apply foldl_segStep_m3u8 (splitOnChar ',' d) []
    intro q' v' hq'
    simp [objGet] at hq'

/-- Witness for C3 at a concrete two-segment payload. -/
theorem parser_segment_semantics_w :
    objGet (parseVideoUrlsDecoded "[720]a.mp4 or b.m3u8,[1080]c.m3u8".toList)
        "720" = some "b.m3u8" ∧
    objGet (parseVideoUrlsDecoded "[720]a.mp4 or b.m3u8,[1080]c.m3u8".toList)
        "1080" = some "c.m3u8" := by
  have h := (parser_segment_semantics.1 "720".toList "a.mp4".toList
    "b.m3u8".toList "1080".toList "c.m3u8".toList
    (by decide) (by decide) (by decide) (by decide) (by decide) (by decide)
    (by decide) (by decide) (by decide) (by decide) (by decide))
  exact ⟨h.1.trans (by decide), h.2.trans (by decide)⟩

/-! ## Sorting lemmas for the quality selection (C1, C4) -/

theorem sInsertK_perm (key : String → Int) (x : String) (l : List String) :
    List.Perm (sInsertK key x l) (x :: l) := by
  induction l with
  | nil => exact List.Perm.refl _
  | cons y ys ih =>
    simp only [sInsertK]
    by_cases h : key y ≤ key x
    · rw [if_pos h]
      exact (ih.cons y).trans (List.Perm.swap x y ys)
    · rw [if_neg h]

theorem sortByKey_perm (key : String → Int) (l : List String) :
    List.Perm (sortByKey key l) l := by
  suffices h : ∀ acc,
      List.Perm (l.foldl (fun acc x => sInsertK key x acc) acc) (acc ++ l) by
    simpa using h []
  induction l with
  | nil => intro acc; simp
  | cons x l ih =>
    intro acc
    rw [List.foldl_cons]
    exact (ih (sInsertK key x acc)).trans
      (((sInsertK_perm key x acc).append_right l).trans List.perm_middle.symm)

theorem sInsertK_pairwise (key : String → Int) (x : String) (l : List String)
    (h : List.Pairwise (fun a b => key a ≤ key b) l) :
    List.Pairwise (fun a b => key a ≤ key b) (sInsertK key x l) := by
  induction l with
  | nil => simp [sInsertK]
  | cons y ys ih =>
    rcases List.pairwise_cons.1 h with ⟨hy, hys⟩
    simp only [sInsertK]
    by_cases hxy : key y ≤ key x
    · rw [if_pos hxy, List.pairwise_cons]
      refine ⟨?_, ih hys⟩
      intro z hz
      rcases List.mem_cons.1 ((sInsertK_perm key x ys).mem_iff.1 hz) with rfl | hz2
      · exact hxy
      · exact hy z hz2
    · rw [if_neg hxy, List.pairwise_cons]
      refine ⟨?_, h⟩
      intro z hz
      rcases List.mem_cons.1 hz with rfl | hz2
      · omega
      · have := hy z hz2; omega

theorem sortByKey_pairwise (key : String → Int) (l : List String) :
    List.Pairwise (fun a b => key a ≤ key b) (sortByKey key l) := by
  suffices h : ∀ acc, List.Pairwise (fun a b => key a ≤ key b) acc →
      List.Pairwise (fun a b => key a ≤ key b)
        (l.foldl (fun acc x => sInsertK key x acc) acc) by
    exact h [] (by simp)
  induction l with
  | nil => exact fun acc hacc => hacc
  | cons x l ih =>
    intro acc hacc
    rw [List.foldl_cons]
    exact ih (sInsertK key x acc) (sInsertK_pairwise key x acc hacc)

theorem filter_sInsertK (key : String → Int) (v : Int) (x : String)
    (l : List String) (hl : List.Pairwise (fun a b => key a ≤ key b) l) :
    (sInsertK key x l).filter (fun y => key y == v) =
      if key x == v then l.filter (fun y => key y == v) ++ [x]
      else l.filter (fun y => key y == v) := by
  induction l with
  | nil =>
    simp only [sInsertK, List.filter_nil]
    rcases hxv : key x == v with _ | _ <;> simp [List.filter_cons, hxv]
  | cons y ys ih =>
    rcases List.pairwise_cons.1 hl with ⟨hy, hys⟩
    simp only [sInsertK]
    by_cases hxy : key y ≤ key x
    · rw [if_pos hxy, List.filter_cons, ih hys, List.filter_cons]
      rcases hyv : key y == v with _ | _ <;>
        rcases hxv : key x == v with _ | _ <;> simp [hyv, hxv]
    · rw [if_neg hxy, List.filter_cons]
      rcases hxv : key x == v with _ | _
      · simp [hxv]
      · have hemp : (y :: ys).filter (fun z => key z == v) = [] := by
          rw [List.filter_eq_nil_iff]
          intro z hz hzv
          rw [beq_iff_eq] at hzv hxv
          have hyz : key y ≤ key z := by
            rcases List.mem_cons.1 hz with rfl | hz2
            · omega
            · exact hy z hz2
          omega
        simp [hxv, hemp]

theorem sortByKey_filter (key : String → Int) (v : Int) (l : List String) :
    (sortByKey key l).filter (fun y => key y == v) =
      l.filter (fun y => key y == v) := by
  suffices h : ∀ acc, List.Pairwise (fun a b => key a ≤ key b) acc →
      (l.foldl (fun acc x => sInsertK key x acc) acc).filter (fun y => key y == v)
        = acc.filter (fun y => key y == v) ++ l.filter (fun y => key y == v) by
    simpa using h [] (by simp)
  induction l with
  | nil => intro acc hacc; simp
  | cons x l ih =>
    intro acc hacc
    rw [List.foldl_cons, ih (sInsertK key x acc) (sInsertK_pairwise key x acc hacc),
      filter_sInsertK key v x acc hacc, List.filter_cons]
    rcases hxv : key x == v with _ | _ <;> simp [hxv]

theorem mem_objectKeys {α : Type} {m : List (String × α)} {k : String} :
    k ∈ objectKeys m ↔ k ∈ m.map Prod.fst := by
  unfold objectKeys
  rw [List.mem_append]
  constructor
  · rintro (h | h)
    · exact List.mem_of_mem_filter ((sortByKey_perm _ _).mem_iff.1 h)
    · exact List.mem_of_mem_filter h
  · intro h
    by_cases hi : isArrayIndexKey k = true
    · exact Or.inl ((sortByKey_perm _ _).mem_iff.2 (List.mem_filter.2 ⟨h, hi⟩))
    · exact Or.inr (List.mem_filter.2 ⟨h, by simp [hi]⟩)

theorem objGet_isSome_of_mem_keys {α : Type} {m : List (String × α)}
    {k : String} (h : k ∈ m.map Prod.fst) : ∃ v, objGet m k = some v := by
  apply objGet_isSome_of_any
  rw [List.any_eq_true]
  rcases List.mem_map.1 h with ⟨p, hp, rfl⟩
  exact ⟨p, hp, by simp⟩

theorem bestStream_fst (m : List (String × String)) :
    (bestStream m).1 = sortByKey jsKey (objectKeys m) := by
  unfold bestStream
  rcases h : (sortByKey jsKey (objectKeys m)).getLast? with _ | b <;> simp [h]

theorem bestStream_snd_some (m : List (String × String)) (q : String)
    (h : (sortByKey jsKey (objectKeys m)).getLast? = some q) :
    (bestStream m).2 = (objGet m q).getD "" := by
  unfold bestStream
  simp [h]

theorem bestStream_snd_none (m : List (String × String))
    (h : (sortByKey jsKey (objectKeys m)).getLast? = none) :
    (bestStream m).2 = "" := by
  unfold bestStream
  simp [h]

theorem mkStreamResult_invariant (d : Envelope) :
    (∀ q, (mkStreamResult d).qualities.getLast? = some q →
      objGet (mkStreamResult d).all_urls q = some (mkStreamResult d).stream_url) ∧
    ((mkStreamResult d).qualities.getLast? = none →
      (mkStreamResult d).stream_url = "") := by
  have hq : (mkStreamResult d).qualities = (bestStream (mkStreamResult d).all_urls).1 := rfl
  have hs : (mkStreamResult d).stream_url = (bestStream (mkStreamResult d).all_urls).2 := rfl
  rw [hq, hs, bestStream_fst]
  constructor
  · intro q hlast
    rw [bestStream_snd_some _ q hlast]
    have hmem : q ∈ sortByKey jsKey (objectKeys (mkStreamResult d).all_urls) :=
      List.mem_of_mem_getLast? hlast
    have hmem2 : q ∈ (mkStreamResult d).all_urls.map Prod.fst :=
      mem_objectKeys.1 ((sortByKey_perm _ _).mem_iff.1 hmem)
    rcases objGet_isSome_of_mem_keys hmem2 with ⟨v, hv⟩
    rw [hv]
    rfl
  · intro hnone
    rw [bestStream_snd_none _ hnone]

/-- C1: in every `StreamResult` produced by `getStream`, `stream_url`
is the url mapped by the last (highest) entry of `qualities` in
`all_urls`, and the empty string when `qualities` is empty. -/
theorem stream_url_invariant :
    ∀ (fr : FetchResult Envelope) (r : StreamResult),
      getStreamFull fr = .ok r →
      (∀ q, r.qualities.getLast? = some q →
        objGet r.all_urls q = some r.stream_url) ∧
      (r.qualities.getLast? = none → r.stream_url = "") := by
  intro fr r hok
  have hr : ∃ d : Envelope, r = mkStreamResult d := by
    rcases fr with e | ⟨st, d⟩
    · exact absurd hok (by simp [getStreamFull])
    · by_cases h2 : 200 ≤ st ∧ st ≤ 299
      · rcases hs : d.success with _ | v
        · refine ⟨d, ?_⟩
          simp only [getStreamFull, if_pos h2, hs] at hok
          exact (Except.ok.injEq _ _ ▸ hok).symm
        · rcases hv : truthy v with _ | _
          · simp only [getStreamFull, if_pos h2, hs, hv] at hok
            exact absurd hok (by simp)
          · refine ⟨d, ?_⟩
            simp only [getStreamFull, if_pos h2, hs, hv] at hok
            exact (Except.ok.injEq _ _ ▸ hok).symm
      · exact absurd hok (by simp [getStreamFull, h2])
  rcases hr with ⟨d, rfl⟩
  exact mkStreamResult_invariant d

/-- Witness for C1 at a concrete successful stream request. -/
theorem stream_url_invariant_w :
    getStreamFull (.resp 200 ⟨none, none, some "WzM2MF1jLm0zdTg=", none, none⟩) =
      .ok ⟨"c.m3u8", ["360"], [], [("360", "c.m3u8")]⟩ ∧
    (["360"] : List String).getLast? = some "360" ∧
    objGet [("360", "c.m3u8")] "360" = some "c.m3u8" :=
  ⟨rfl, rfl,
   (stream_url_invariant
      (.resp 200 ⟨none, none, some "WzM2MF1jLm0zdTg=", none, none⟩)
      ⟨"c.m3u8", ["360"], [], [("360", "c.m3u8")]⟩ rfl).1 "360" rfl⟩

/-! ## C4: quality ordering and best-quality selection -/

theorem pairwise_le_getLast (key : String → Int) :
    ∀ (l : List String) (q : String),
      List.Pairwise (fun a b => key a ≤ key b) l → l.getLast? = some q →
      ∀ q' ∈ l, key q' ≤ key q := by
  intro l
  induction l with
  | nil => intro q _ hl; exact absurd hl (by simp)
  | cons y ys ih =>
    intro q hp hl q' hq'
    rcases List.pairwise_cons.1 hp with ⟨hy, hys⟩
    rcases ys with _ | ⟨z, zs⟩
    · have hq : q = y := by
        simp only [List.getLast?_singleton] at hl
        injection hl with h; exact h.symm
      rcases List.mem_singleton.1 hq' with rfl
      rw [hq]
    · rw [List.getLast?_cons_cons] at hl
      rcases List.mem_cons.1 hq' with rfl | hq2
      · exact hy q (List.mem_of_mem_getLast? hl)
      · exact ih q hys hl q' hq2

/-- C4 counterexample: over the parser-produced mapping for
`[0720]x.m3u8,[720]y.m3u8` the labels "0720" and "720" tie numerically,
"720" is the later-encountered one and maps to "y.m3u8", yet the
selection yields "x.m3u8": the later-encountered label does not win. -/
theorem quality_tie_counterexample :
    parseVideoUrlsDecoded "[0720]x.m3u8,[720]y.m3u8".toList =
      [("0720", "x.m3u8"), ("720", "y.m3u8")] ∧
    jsKey "0720" = jsKey "720" ∧
    bestStream [("0720", "x.m3u8"), ("720", "y.m3u8")] =
      (["720", "0720"], "x.m3u8") ∧
    objGet [("0720", "x.m3u8"), ("720", "y.m3u8")] "720" = some "y.m3u8" ∧
    ("x.m3u8" : String) ≠ "y.m3u8" :=
  ⟨rfl, rfl, rfl, rfl, by decide⟩

/-- C4 (amended): the qualities sequence is sorted ascending by the
label's `parseInt`-or-0 value and the last entry attains the maximum;
labels with equal numeric value keep their relative order from the
JS object key enumeration (canonical array-index labels in ascending
numeric order before the remaining labels in insertion order), so the
last of the tied labels in that enumeration wins; over
`{"720":"a.m3u8","1080":"b.m3u8","360":"c.m3u8"}` the selection yields
"b.m3u8". -/
theorem quality_ordering_amended :
    (∀ m : List (String × String),
      List.Pairwise (fun a b => jsKey a ≤ jsKey b) (bestStream m).1) ∧
    (∀ (m : List (String × String)) (q q' : String),
      (bestStream m).1.getLast? = some q → q' ∈ (bestStream m).1 →
      jsKey q' ≤ jsKey q) ∧
    (∀ (m : List (String × String)) (v : Int),
      (bestStream m).1.filter (fun q => jsKey q == v) =
        (objectKeys m).filter (fun q => jsKey q == v)) ∧
    (parseVideoUrlsDecoded "[720]a.m3u8,[1080]b.m3u8,[360]c.m3u8".toList =
      [("720", "a.m3u8"), ("1080", "b.m3u8"), ("360", "c.m3u8")]) ∧
    (bestStream [("720", "a.m3u8"), ("1080", "b.m3u8"), ("360", "c.m3u8")] =
      (["360", "720", "1080"], "b.m3u8")) := by
  refine ⟨?_, ?_, ?_, rfl, rfl⟩
  · intro m
    rw [bestStream_fst]
    exact sortByKey_pairwise jsKey (objectKeys m)
  · intro m q q' hlast hmem
    rw [bestStream_fst] at hlast hmem
    exact pairwise_le_getLast jsKey _ q (sortByKey_pairwise jsKey (objectKeys m))
      hlast q' hmem
  · intro m v
    rw [bestStream_fst]
    exact sortByKey_filter jsKey v (objectKeys m)

/-- Witness for C4's amended theorem at a concrete mapping. -/
theorem quality_ordering_amended_w :
    List.Pairwise (fun a b => jsKey a ≤ jsKey b) (["360", "720", "1080"] : List String) ∧
    jsKey "720" ≤ jsKey "1080" :=
  ⟨quality_ordering_amended.1 [("720", "a.m3u8"), ("1080", "b.m3u8"), ("360", "c.m3u8")],
   quality_ordering_amended.2.1 [("720", "a.m3u8"), ("1080", "b.m3u8"), ("360", "c.m3u8")]
      "1080" "720" rfl (by decide)⟩

/-! ## C2: deobfuscation round trip

A token is modelled as a clean base64 string (the `btoa` encoding of the
clear text) with junk markers interspersed (`JunkOf`), optionally
prefixed by the position-anchored `#h` marker.  The round trip holds
whenever the clean encoding itself contains no marker occurrence
(`noMatchIn`); the counterexample shows that restriction is necessary,
because the single stripping pass cannot tell encoding bytes that
happen to spell a marker from inserted junk. -/

/-- Characters of a clean padded base64 encoding. -/
def cleanChar (c : Char) : Bool :=
  isB64Char c || c == '='

/-- No trash-pattern match at any position of a string (scanned with
`atStart` false; clean encodings contain no `#`). -/
def noMatchIn : List Char → Bool
  | [] => true
  | c :: rest => (headMatchLen false (c :: rest) == 0) && noMatchIn rest

/-- The junk markers that can appear at any position: `//_//` and the
four-character markers. -/
inductive IsMarker : List Char → Prop where
  | slashes : IsMarker ['/', '/', '_', '/', '/']
  | four (a b c d : Char) : isMarker4 a b c d = true → IsMarker [a, b, c, d]

/-- `JunkOf t s`: the token `t` is the clean string `s` with junk
markers interspersed at arbitrary positions. -/
inductive JunkOf : List Char → List Char → Prop where
  | nil : JunkOf [] []
  | cons (c : Char) {t s : List Char} : JunkOf t s → JunkOf (c :: t) (c :: s)
  | marker {m t s : List Char} : IsMarker m → JunkOf t s → JunkOf (m ++ t) s

/-- Characters a marker can start with. -/
def markerHeadChar (c : Char) : Bool :=
  c == 'I' || c == 'J' || c == 'Q' || c == 'X' || c == '/'

/-- Second characters of markers starting with `Q`. -/
def qSecondChar (c : Char) : Bool :=
  c == 'E' || c == 'F' || c == 'C'

theorem isMarker4_elim {a b c d : Char} (h : isMarker4 a b c d = true) :
    (isM1a a b = true ∧ isM1b c d = true) ∨
    (isM2a a b = true ∧ isM2b c d = true) := by
  simp only [isMarker4, Bool.or_eq_true, Bool.and_eq_true] at h
  exact h

theorem m4_first {a b c d : Char} (h : isMarker4 a b c d = true) :
    a = 'I' ∨ a = 'J' ∨ a = 'Q' ∨ a = 'X' := by
  rcases isMarker4_elim h with ⟨h1, _⟩ | ⟨h1, _⟩
  · simp only [isM1a, Bool.or_eq_true, Bool.and_eq_true, beq_iff_eq] at h1
    tauto
  · simp only [isM2a, Bool.or_eq_true, Bool.and_eq_true, beq_iff_eq] at h1
    tauto

theorem m4_second_not_head {a b c d : Char} (h : isMarker4 a b c d = true) :
    markerHeadChar b = false := by
  rcases isMarker4_elim h with ⟨h1, _⟩ | ⟨h1, _⟩
  · simp only [isM1a, Bool.or_eq_true, Bool.and_eq_true, beq_iff_eq] at h1
    have hb : b = '0' ∨ b = '1' ∨ b = 'U' ∨ b = 'V' ∨ b = 'E' ∨ b = 'F' ∨
        b = 'k' ∨ b = 'l' := by tauto
    rcases hb with rfl | rfl | rfl | rfl | rfl | rfl | rfl | rfl <;> decide
  · simp only [isM2a, Bool.or_eq_true, Bool.and_eq_true, beq_iff_eq] at h1
    have hb : b = 'S' ∨ b = 'y' ∨ b = 'C' ∨ b = 'i' := by tauto
    rcases hb with rfl | rfl | rfl | rfl <;> decide

theorem m4_third {a b c d : Char} (h : isMarker4 a b c d = true) :
    c = 'Q' ∨ markerHeadChar c = false := by
  rcases isMarker4_elim h with ⟨_, h2⟩ | ⟨_, h2⟩
  · simp only [isM1b, Bool.or_eq_true, Bool.and_eq_true, beq_iff_eq] at h2
    have hc : c = 'A' ∨ c = '4' ∨ c = 'B' ∨ c = '5' := by tauto
    rcases hc with rfl | rfl | rfl | rfl <;> right <;> decide
  · simp only [isM2b, Bool.or_eq_true, Bool.and_eq_true, beq_iff_eq] at h2
    have hc : c = 'E' ∨ c = 'M' ∨ c = 'Q' ∨ c = 'F' ∨ c = 'N' ∨ c = 'R' := by
      tauto
    rcases hc with rfl | rfl | rfl | rfl | rfl | rfl
    · right; decide
    · right; decide
    · left; rfl
    · right; decide
    · right; decide
    · right; decide

theorem m4_fourth_not_head {a b c d : Char} (h : isMarker4 a b c d = true) :
    markerHeadChar d = false := by
  rcases isMarker4_elim h with ⟨_, h2⟩ | ⟨_, h2⟩ <;>
    simp only [isM1b, isM2b, Bool.or_eq_true, Bool.and_eq_true, beq_iff_eq] at h2 <;>
      have hd : d = '=' ∨ d = 'h' ∨ d = 'j' ∨ d = 'k' ∨ d = 'A' ∨ d = 'e' := by
        tauto
  all_goals rcases hd with rfl | rfl | rfl | rfl | rfl | rfl <;> decide

theorem m4_fourth_not_qsecond {a b c d : Char} (h : isMarker4 a b c d = true)
    (hc : c = 'Q') : qSecondChar d = false := by
  subst hc
  rcases isMarker4_elim h with ⟨_, h2⟩ | ⟨_, h2⟩
  · exact absurd h2 (by simp [isM1b])
  · simp only [isM2b, Bool.or_eq_true, Bool.and_eq_true, beq_iff_eq] at h2
    have hd : d = '=' ∨ d = 'h' ∨ d = 'j' ∨ d = 'k' := by
      rcases h2 with ⟨_, hd⟩ | ⟨hq, _⟩
      · tauto
      · rcases hq with hq | hq | hq
        all_goals exact absurd hq (by decide)
    rcases hd with rfl | rfl | rfl | rfl
    all_goals decide

theorem m4_first_not_slash {a b c d : Char} (h : isMarker4 a b c d = true) :
    a ≠ '/' := by
  rcases m4_first h with rfl | rfl | rfl | rfl <;> decide

theorem m4_first_not_hash {a b c d : Char} (h : isMarker4 a b c d = true) :
    a ≠ '#' := by
  rcases m4_first h with rfl | rfl | rfl | rfl <;> decide

theorem marker_head_cases {m : List Char} (h : IsMarker m) :
    ∃ x y r, m = x :: y :: r ∧ markerHeadChar x = true := by
  cases h with
  | slashes => exact ⟨'/', '/', ['_', '/', '/'], rfl, by decide⟩
  | four a b c d h4 =>
    refine ⟨a, b, [c, d], rfl, ?_⟩
    rcases m4_first h4 with rfl | rfl | rfl | rfl <;> decide

theorem marker_Q_second {m : List Char} (h : IsMarker m) {x : Char}
    {r : List Char} (he : m = 'Q' :: x :: r) : qSecondChar x = true := by
  cases h with
  | slashes => simp at he
  | four a b c d h4 =>
    injection he with h1 he2
    injection he2 with h2 he3
    subst h1; subst h2
    rcases isMarker4_elim h4 with ⟨h1a, _⟩ | ⟨h1a, _⟩
    · simp only [isM1a, Bool.or_eq_true, Bool.and_eq_true, beq_iff_eq] at h1a
      have hx : b = 'E' ∨ b = 'F' ∨ ('Q' : Char) = 'I' ∨ ('Q' : Char) = 'X' := by
        tauto
      rcases hx with rfl | rfl | hq | hq
      · decide
      · decide
      · exact absurd hq (by decide)
      · exact absurd hq (by decide)
    · simp only [isM2a, Bool.or_eq_true, Bool.and_eq_true, beq_iff_eq] at h1a
      have hx : b = 'C' ∨ ('Q' : Char) = 'I' ∨ ('Q' : Char) = 'X' := by tauto
      rcases hx with rfl | hq | hq
      · decide
      · exact absurd hq (by decide)
      · exact absurd hq (by decide)

theorem stripTrash_hash (t : List Char) :
    stripTrash true ('#' :: 'h' :: t) = stripTrash false t := by
  simp [stripTrash]

theorem stripTrash_slashes (b : Bool) (t : List Char) :
    stripTrash b ('/' :: '/' :: '_' :: '/' :: '/' :: t) = stripTrash false t := by
  cases b <;> rfl

theorem stripTrash_marker4 (b : Bool) (a x y z : Char) (t : List Char)
    (h : isMarker4 a x y z = true) :
    stripTrash b (a :: x :: y :: z :: t) = stripTrash false t := by
  rcases m4_first h with rfl | rfl | rfl | rfl <;> cases b <;>
    simp [stripTrash, h]

theorem headMatchLen_four (b : Bool) (a x y z : Char) (t : List Char)
    (h : isMarker4 a x y z = true) :
    headMatchLen b (a :: x :: y :: z :: t) = 4 := by
  rcases m4_first h with rfl | rfl | rfl | rfl <;> cases b <;>
    simp [headMatchLen, h]

theorem stripTrash_cons (b : Bool) (c : Char) (t : List Char)
    (h : headMatchLen b (c :: t) = 0) :
    stripTrash b (c :: t) = c :: stripTrash false t := by
  rw [stripTrash.eq_def]
  split
  · rename_i b2 s0 rest heq
    rw [heq] at h
    simp [headMatchLen] at h
  · rename_i b1 b2 s0 rest heq
    rw [heq] at h
    cases b1 <;> simp [headMatchLen] at h
  · rename_i b1 b2 s0 a x y z rest hno1 hno2 heq
    injection heq with hc ht
    subst hc
    subst ht
    rcases hm : isMarker4 c x y z with _ | _
    · rw [if_neg (by simp [hm])]
    · rw [headMatchLen_four b1 c x y z rest hm] at h
      exact absurd h (by decide)
  · rename_i b1 b2 s0 a rest hno1 hno2 hno3 heq
    injection heq with hc ht
    subst hc
    subst ht
    rfl
  · rename_i b1 b2 s0 heq
    exact absurd heq (by simp)

theorem junkOf_cases {t s : List Char} (h : JunkOf t s) :
    (t = [] ∧ s = []) ∨
    (∃ c t2 s2, t = c :: t2 ∧ s = c :: s2 ∧ JunkOf t2 s2) ∨
    (∃ m t2, IsMarker m ∧ t = m ++ t2 ∧ JunkOf t2 s) := by
  cases h with
  | nil => exact Or.inl ⟨rfl, rfl⟩
  | cons c h => exact Or.inr (Or.inl ⟨c, _, _, rfl, rfl, h⟩)
  | marker hm h => exact Or.inr (Or.inr ⟨_, _, hm, rfl, h⟩)

theorem junk_head_nomatch {t' s' : List Char} (hj : JunkOf t' s') (c : Char)
    (hc : cleanChar c = true) (hs : s'.all cleanChar = true)
    (hm0 : headMatchLen false (c :: s') = 0) (b : Bool) :
    headMatchLen b (c :: t') = 0 := by
  rw [headMatchLen.eq_def]
  split
  · rename_i b2 s0 rest heq
    injection heq with hcc ht
    subst hcc
    exact absurd hc (by decide)
  · rename_i b1 b2 s0 rest heq
    injection heq with hcc ht
    exfalso
    rcases junkOf_cases hj with ⟨ht0, _⟩ | ⟨c2, t2, s2, ht2, hs2, hj2⟩ |
      ⟨m, t2, hm2, ht2, hj2⟩
    · rw [ht0] at ht; exact absurd ht (by simp)
    · rw [ht] at ht2
      injection ht2 with e1 e2
      rcases junkOf_cases hj2 with ⟨ht3, _⟩ | ⟨c3, t3, s3, ht3, hs3, hj3⟩ |
        ⟨m, t3, hm3, ht3, hj3⟩
      · rw [ht3] at e2; exact absurd e2 (by simp)
      · rw [ht3] at e2
        injection e2 with f1 f2
        rw [hs2, hs3] at hs
        simp only [List.all_cons, Bool.and_eq_true] at hs
        have hclean3 := hs.2.1
        rw [← f1] at hclean3
        exact absurd hclean3 (by decide)
      · rw [ht3] at e2
        rcases marker_head_cases hm3 with ⟨mx, my, mr, hmm, hmx⟩
        rw [hmm, List.cons_append] at e2
        injection e2 with f1 _
        rw [← f1] at hmx
        exact absurd hmx (by decide)
    · rw [ht] at ht2
      cases hm2 with
      | slashes =>
        simp only [List.cons_append] at ht2
        injection ht2 with e1 e2
        injection e2 with e3 _
        exact absurd e3 (by decide)
      | four a x y z h4 =>
        simp only [List.cons_append] at ht2
        injection ht2 with e1 _
        exact absurd e1.symm (m4_first_not_slash h4)
  · rename_i b1 b2 s0 a x y z rest hno1 hno2 heq
    injection heq with hcc ht
    subst hcc
    rcases hm4 : isMarker4 c x y z with _ | _
    · simp [hm4]
    · exfalso
      rcases junkOf_cases hj with ⟨ht0, _⟩ | ⟨c2, t2, s2, ht2, hs2, hj2⟩ |
        ⟨m, t2, hm2, ht2, hj2⟩
      · rw [ht0] at ht; exact absurd ht (by simp)
      · rw [ht] at ht2
        injection ht2 with e1 e2
        rcases junkOf_cases hj2 with ⟨ht3, _⟩ | ⟨c3, t3, s3, ht3, hs3, hj3⟩ |
          ⟨m, t3, hm3, ht3, hj3⟩
        · rw [ht3] at e2; exact absurd e2 (by simp)
        · rw [ht3] at e2
          injection e2 with f1 f2
          rcases junkOf_cases hj3 with ⟨ht4, _⟩ | ⟨c4, t4, s4, ht4, hs4, hj4⟩ |
            ⟨m, t4, hm4a, ht4, hj4⟩
          · rw [ht4] at f2; exact absurd f2 (by simp)
          · rw [ht4] at f2
            injection f2 with g1 g2
            rw [hs2, hs3, hs4, ← e1, ← f1, ← g1] at hm0
            rw [headMatchLen_four false c x y z s4 hm4] at hm0
            exact absurd hm0 (by decide)
          · rw [ht4] at f2
            rcases marker_head_cases hm4a with ⟨mx, my, mr, hmm, hmx⟩
            rw [hmm, List.cons_append] at f2
            injection f2 with g1 _
            rw [← g1] at hmx
            exact absurd hmx (by simp [m4_fourth_not_head hm4])
        · rw [ht3] at e2
          rcases marker_head_cases hm3 with ⟨mx, my, mr, hmm, hmx⟩
          rw [hmm, List.cons_append] at e2
          injection e2 with f1 f2
          injection f2 with f3 _
          rcases m4_third hm4 with hy | hy
          · have hq2 := marker_Q_second hm3 (by rw [hmm, ← f1, ← f3, hy])
            exact absurd hq2 (by simp [m4_fourth_not_qsecond hm4 hy])
          · rw [← f1] at hmx
            exact absurd hmx (by simp [hy])
      · rw [ht] at ht2
        rcases marker_head_cases hm2 with ⟨mx, my, mr, hmm, hmx⟩
        rw [hmm, List.cons_append] at ht2
        injection ht2 with e1 _
        rw [← e1] at hmx
        exact absurd hmx (by simp [m4_second_not_head hm4])
  · rfl

theorem stripTrash_junkOf : ∀ {t s : List Char}, JunkOf t s →
    s.all cleanChar = true → noMatchIn s = true →
    ∀ b : Bool, stripTrash b t = s := by
  intro t s hj
  induction hj with
  | nil =>
    intro _ _ b
    cases b <;> rfl
  | @cons c t2 s2 hj ih =>
    intro hclean hnm b
    simp only [List.all_cons, Bool.and_eq_true] at hclean
    obtain ⟨hc, hs2⟩ := hclean
    simp only [noMatchIn, Bool.and_eq_true, beq_iff_eq] at hnm
    obtain ⟨hm0, hnm2⟩ := hnm
    rw [stripTrash_cons b c _ (junk_head_nomatch hj c hc hs2 hm0 b),
      ih hs2 hnm2 false]
  | @marker m t2 s2 hm hj ih =>
    intro hclean hnm b
    cases hm with
    | slashes =>
      show stripTrash b ('/' :: '/' :: '_' :: '/' :: '/' :: t2) = s2
      rw [stripTrash_slashes b t2]
      exact ih hclean hnm false
    | four a x y z h4 =>
      show stripTrash b (a :: x :: y :: z :: t2) = s2
      rw [stripTrash_marker4 b a x y z t2 h4]
      exact ih hclean hnm false

theorem b64chr_spec : ∀ n, n < 64 →
    isB64Char (b64chr n) = true ∧ isAsciiWS (b64chr n) = false ∧
    b64val (b64chr n) = n := by decide

theorem isB64Char_ne_eq {c : Char} (h : isB64Char c = true) : c ≠ '=' := by
  intro he
  subst he
  exact absurd h (by decide)

theorem isB64Char_not_ws {c : Char} (h : isB64Char c = true) :
    isAsciiWS c = false := by
  simp only [isB64Char, Bool.or_eq_true, Bool.and_eq_true, decide_eq_true_eq,
    beq_iff_eq] at h
  simp only [isAsciiWS, Bool.or_eq_true, beq_iff_eq]
  simp only [Bool.or_eq_false_iff, beq_eq_false_iff_ne]
  omega

theorem encB64_all_b64 :
    ∀ l : List Nat, (∀ a ∈ l, a < 256) → ∀ c ∈ encB64 l, isB64Char c = true
  | [], _ => by simp [encB64]
  | [a], h => by
    have ha : a < 256 := h a (by simp)
    intro c hc
    simp only [encB64, List.mem_cons, List.not_mem_nil, or_false] at hc
    rcases hc with rfl | rfl
    · exact (b64chr_spec (a / 4) (by omega)).1
    · exact (b64chr_spec (a % 4 * 16) (by omega)).1
  | [a, b], h => by
    have ha : a < 256 := h a (by simp)
    have hb : b < 256 := h b (by simp)
    intro c hc
    simp only [encB64, List.mem_cons, List.not_mem_nil, or_false] at hc
    rcases hc with rfl | rfl | rfl
    · exact (b64chr_spec (a / 4) (by omega)).1
    · exact (b64chr_spec (a % 4 * 16 + b / 16) (by omega)).1
    · exact (b64chr_spec (b % 16 * 4) (by omega)).1
  | a :: b :: c0 :: rest, h => by
    have ha : a < 256 := h a (by simp)
    have hb : b < 256 := h b (by simp)
    have hc0 : c0 < 256 := h c0 (by simp)
    intro c hc
    simp only [encB64, List.mem_cons] at hc
    rcases hc with rfl | rfl | rfl | rfl | hc
    · exact (b64chr_spec (a / 4) (by omega)).1
    · exact (b64chr_spec (a % 4 * 16 + b / 16) (by omega)).1
    · exact (b64chr_spec (b % 16 * 4 + c0 / 64) (by omega)).1
    · exact (b64chr_spec (c0 % 64) (by omega)).1
    · exact encB64_all_b64 rest (fun x hx => h x (by simp [hx])) c hc

theorem encB64_length : ∀ l : List Nat,
    (encB64 l).length = (l.length * 4 + 2) / 3
  | [] => rfl
  | [_] => by simp [encB64]
  | [_, _] => by simp [encB64]
  | a :: b :: c :: rest => by
    simp only [encB64, List.length_cons, encB64_length rest]
    omega

theorem decodeChunks_encB64 :
    ∀ l : List Nat, (∀ a ∈ l, a < 256) → decodeChunks (encB64 l) = l
  | [], _ => rfl
  | [a], h => by
    have ha : a < 256 := h a (by simp)
    have h1 := (b64chr_spec (a / 4) (by omega)).2.2
    have h2 := (b64chr_spec (a % 4 * 16) (by omega)).2.2
    simp only [encB64, decodeChunks, h1, h2]
    congr 1
    omega
  | [a, b], h => by
    have ha : a < 256 := h a (by simp)
    have hb : b < 256 := h b (by simp)
    have h1 := (b64chr_spec (a / 4) (by omega)).2.2
    have h2 := (b64chr_spec (a % 4 * 16 + b / 16) (by omega)).2.2
    have h3 := (b64chr_spec (b % 16 * 4) (by omega)).2.2
    simp only [encB64, decodeChunks, h1, h2, h3, List.cons.injEq, and_true]
    constructor <;> omega
  | a :: b :: c0 :: rest, h => by
    have ha : a < 256 := h a (by simp)
    have hb : b < 256 := h b (by simp)
    have hc0 : c0 < 256 := h c0 (by simp)
    have h1 := (b64chr_spec (a / 4) (by omega)).2.2
    have h2 := (b64chr_spec (a % 4 * 16 + b / 16) (by omega)).2.2
    have h3 := (b64chr_spec (b % 16 * 4 + c0 / 64) (by omega)).2.2
    have h4 := (b64chr_spec (c0 % 64) (by omega)).2.2
    simp only [encB64, decodeChunks, h1, h2, h3, h4, List.cons.injEq]
    refine ⟨by omega, by omega, by omega,
      decodeChunks_encB64 rest (fun x hx => h x (by simp [hx]))⟩

theorem btoa_length_mod4 (l : List Nat) : (btoa l).length % 4 = 0 := by
  unfold btoa
  rw [List.length_append, encB64_length, List.length_replicate]
  rcases (show l.length % 3 = 0 ∨ l.length % 3 = 1 ∨ l.length % 3 = 2 by omega)
    with h3 | h3 | h3 <;> omega

theorem btoa_not_ws (l : List Nat) (h : ∀ a ∈ l, a < 256) :
    ∀ c ∈ btoa l, isAsciiWS c = false := by
  intro c hc
  unfold btoa at hc
  rcases List.mem_append.1 hc with hc | hc
  · exact isB64Char_not_ws (encB64_all_b64 l h c hc)
  · rw [List.eq_of_mem_replicate hc]
    decide

theorem filter_ws_of_clean {d : List Char}
    (h : ∀ c ∈ d, isAsciiWS c = false) :
    d.filter (fun c => !isAsciiWS c) = d :=
  List.filter_eq_self.2 (fun a ha => by simp [h a ha])

theorem atobD_padded_fail (l : List Nat) (h : ∀ a ∈ l, a < 256) :
    atobD (btoa l ++ ['=', '=']) = none := by
  have hws : ∀ c ∈ btoa l ++ ['=', '='], isAsciiWS c = false := by
    intro c hc
    rcases List.mem_append.1 hc with hc | hc
    · exact btoa_not_ws l h c hc
    · rcases List.mem_cons.1 hc with rfl | hc
      · decide
      · rcases List.mem_singleton.1 hc with rfl
        decide
  have hlen : (btoa l ++ ['=', '=']).length % 4 = 2 := by
    rw [List.length_append]
    have := btoa_length_mod4 l
    simp only [List.length_cons, List.length_nil]
    omega
  have hdp : dropPad (btoa l ++ ['=', '=']) = btoa l ++ ['=', '='] := by
    unfold dropPad
    rw [if_neg (by omega)]
  have hall : ((btoa l ++ ['=', '=']).all isB64Char) = false := by
    rw [Bool.eq_false_iff]
    intro hall
    rw [List.all_eq_true] at hall
    exact absurd (hall '=' (by simp)) (by decide)
  simp only [atobD]
  rw [filter_ws_of_clean hws, hdp, if_neg (by omega), hall]
  rfl

theorem dropPad_btoa (l : List Nat) (hb : ∀ a ∈ l, a < 256) :
    dropPad (btoa l) = encB64 l := by
  have hx_ne : ∀ x xs, (encB64 l).reverse = x :: xs → x ≠ '=' := by
    intro x xs hrev
    have hmem : x ∈ encB64 l :=
      List.mem_reverse.1 (hrev ▸ List.mem_cons_self x xs)
    exact isB64Char_ne_eq (encB64_all_b64 l hb x hmem)
  unfold dropPad
  rw [if_pos (btoa_length_mod4 l)]
  unfold btoa
  rcases (show l.length % 3 = 0 ∨ l.length % 3 = 1 ∨ l.length % 3 = 2 by omega)
    with h3 | h3 | h3
  · rw [h3, show List.replicate ((3 - 0) % 3) '=' = [] from rfl, List.append_nil]
    rcases hrev : (encB64 l).reverse with _ | ⟨x, xs⟩
    · rfl
    · have hx := hx_ne x xs hrev
      split
      · rename_i r heq
        injection heq with h1 _
        exact absurd h1 hx
      · rename_i s0 r hono heq
        injection heq with h1 _
        exact absurd h1 hx
      · rfl
  · rw [h3, show List.replicate ((3 - 1) % 3) '=' = ['=', '='] from rfl]
    rw [show (encB64 l ++ ['=', '=']).reverse = '=' :: '=' :: (encB64 l).reverse
      by simp]
    show (encB64 l).reverse.reverse = encB64 l
    exact List.reverse_reverse _
  · rw [h3, show List.replicate ((3 - 2) % 3) '=' = ['='] from rfl]
    rw [show (encB64 l ++ ['=']).reverse = '=' :: (encB64 l).reverse by simp]
    have hne : encB64 l ≠ [] := by
      intro he
      have hl := encB64_length l
      rw [he] at hl
      simp only [List.length_nil] at hl
      omega
    rcases hrev : (encB64 l).reverse with _ | ⟨x, xs⟩
    · exact absurd (by simpa using congrArg List.reverse hrev) hne
    · have hx := hx_ne x xs hrev
      split
      · rename_i r heq
        injection heq with _ heq2
        injection heq2 with h2 _
        exact absurd h2 hx
      · rename_i s0 r hono heq
        injection heq with _ h2
        rw [← h2, ← hrev, List.reverse_reverse]
      · rename_i hno1 hno2
        exact absurd rfl (hno2 (x :: xs))

theorem atobD_btoa (l : List Nat) (h : ∀ a ∈ l, a < 256) :
    atobD (btoa l) = some l := by
  have hlen : (encB64 l).length % 4 ≠ 1 := by
    rw [encB64_length]
    omega
  simp only [atobD]
  rw [filter_ws_of_clean (btoa_not_ws l h), dropPad_btoa l h, if_neg hlen,
    if_pos (List.all_eq_true.2 (encB64_all_b64 l h)),
    decodeChunks_encB64 l h]

theorem btoa_all_clean (l : List Nat) (h : ∀ a ∈ l, a < 256) :
    (btoa l).all cleanChar = true := by
  rw [List.all_eq_true]
  intro c hc
  unfold btoa at hc
  rcases List.mem_append.1 hc with hc | hc
  · simp [cleanChar, encB64_all_b64 l h c hc]
  · rw [List.eq_of_mem_replicate hc]
    decide

/-- C2 counterexample: the base64 encoding of the clear string `!@!` is
itself a junk marker (`IUAh`), so a token carrying that encoding with a
junk marker in front deobfuscates to the empty string rather than back
to `!@!`: the round trip fails as universally stated. -/
theorem deobfuscate_roundtrip_counterexample :
    btoa ("!@!".toList.map Char.toNat) = "IUAh".toList ∧
    JunkOf "//_//IUAh".toList "IUAh".toList ∧
    noMatchIn "IUAh".toList = false ∧
    clearTrash "//_//IUAh".toList = [] ∧
    ("!@!".toList : List Char) ≠ [] := by
  refine ⟨rfl, ?_, rfl, rfl, by decide⟩
  exact JunkOf.marker IsMarker.slashes
    (JunkOf.cons 'I' (JunkOf.cons 'U' (JunkOf.cons 'A'
      (JunkOf.cons 'h' JunkOf.nil))))

/-- C2 (amended): for every clear string of byte-sized characters whose
base64 encoding contains no junk-marker occurrence, interspersing junk
markers into the encoding (optionally prefixing the anchored `#h`
marker) and deobfuscating returns the original clear string; the
stripping pass removes every interspersed marker. -/
theorem deobfuscate_roundtrip_amended :
    ∀ (clear tok junked : List Char),
      (∀ c ∈ clear, c.toNat < 256) →
      JunkOf junked (btoa (clear.map Char.toNat)) →
      noMatchIn (btoa (clear.map Char.toNat)) = true →
      (tok = junked ∨ tok = '#' :: 'h' :: junked) →
      clearTrash tok = clear := by
  intro clear tok junked hb hj hnm htok
  have hbytes : ∀ a ∈ clear.map Char.toNat, a < 256 := by
    intro a ha
    rcases List.mem_map.1 ha with ⟨c, hc, rfl⟩
    exact hb c hc
  have hclean := btoa_all_clean _ hbytes
  have hstrip : stripTrash true tok = btoa (clear.map Char.toNat) := by
    rcases htok with rfl | rfl
    · exact stripTrash_junkOf hj hclean hnm true
    · rw [stripTrash_hash]
      exact stripTrash_junkOf hj hclean hnm false
  simp only [clearTrash, clearTrashBytes, hstrip,
    atobD_padded_fail _ hbytes, atobD_btoa _ hbytes]
  simp [List.map_map, Function.comp_def, Char.ofNat_toNat]

/-- Witness for C2's amended theorem: the encoding of "hi" with a
four-character marker inserted and the `#h` prefix round-trips. -/
theorem deobfuscate_roundtrip_amended_w :
    clearTrash "#haGQEAhk=".toList = "hi".toList := by
  apply deobfuscate_roundtrip_amended "hi".toList "#haGQEAhk=".toList
    "aGQEAhk=".toList (by decide) ?_ (by decide) (Or.inr rfl)
  rw [show btoa ("hi".toList.map Char.toNat) = "aGk=".toList from rfl]
  exact JunkOf.cons 'a' (JunkOf.cons 'G'
    (JunkOf.marker (IsMarker.four 'Q' 'E' 'A' 'h' (by decide))
      (JunkOf.cons 'k' (JunkOf.cons '=' JunkOf.nil))))

end Nocturne
